import Mathlib

/-! Sample deduplication (`lib/storage/dedup.go`).

A shallow embedding of `needsDedup`, `DeduplicateSamples` and
`deduplicateSamplesDuringMerge`, followed by the properties proved about them.

Modelling conventions.

* `int64` timestamps and intervals are integers (`Int`) in the range
  `MinInt64 .. MaxInt64`; the result of every `+` and `-` of the source goes
  through `wrapInt64`, the two's-complement wrap-around of Go.  Go's `%` is the
  truncated remainder `Int.tmod` (the sign of the result is the sign of the
  dividend).  `NoOverflow I t` says that `t` is an `int64` and that
  `t + I - 1` does not exceed `MaxInt64`.
* A slice is a `List`.  Reading `s[i]` is `s[i]?`: an index out of range is a
  Go panic, modelled by `none`.
* `dst := src[:0]` shares the backing array of `src`.  An `append` to `dst`
  writes index `len(dst)` of that array, which is visible through `src` when
  `len(dst) < len(src)`; `appendAliased` returns the new view of `src` together
  with the new `dst`.
* The timestamp buffer and the value buffer are distinct arrays.
* `slowPath` is the text after the `needsDedup` test taken on its own, and the
  `…Fresh` definitions are the same text with `dst` allocated afresh; both are
  compared with the functions above.
* `float64` values are an arbitrary carrier `α` with a zero and a Boolean
  less-than test `lt` (the Go expression `a < b`); properties that need a
  total order instantiate `lt` with the order of a `LinearOrder`, and
  `Float64` with `Float64.lt` is the instance that has a NaN.
-/

namespace Dedup

/-! ## Definitions -/

/-- The greatest `int64`. -/
def MaxInt64 : Int := 9223372036854775807

/-- The least `int64`. -/
def MinInt64 : Int := -9223372036854775808

/-- The `int64` that Go stores for the mathematical result `x` of `+` or `-`:
`x` reduced modulo `2^64` into `[-2^63, 2^63)`. -/
def wrapInt64 (x : Int) : Int :=
  (x + 9223372036854775808) % 18446744073709551616 - 9223372036854775808

/-- Lines 33-34, 55-56, 75-76, 96-97, 114-115, 122-123:
`tsNext := ts + dedupInterval - 1; tsNext -= tsNext % dedupInterval`, every
`+` and `-` wrapping as `int64` arithmetic does. -/
def alignTsNext (ts dedupInterval : Int) : Int :=
  let tsNext := wrapInt64 (wrapInt64 (ts + dedupInterval) - 1)
  wrapInt64 (tsNext - tsNext.tmod dedupInterval)

/-- Lines 53-57, 94-98, 120-124: the update of `tsNext` once `ts` has passed it,
`tsNext += dedupInterval` wrapping as `int64` arithmetic does. -/
def advanceTsNext (tsNext ts dedupInterval : Int) : Int :=
  let tsNext := wrapInt64 (tsNext + dedupInterval)
  if tsNext < ts then alignTsNext ts dedupInterval else tsNext

/-- Lines 116-126: the loop of `needsDedup` over `timestamps[1:]`. -/
def needsDedupLoop (dedupInterval : Int) : Int → List Int → Bool
  | _, [] => false
  | tsNext, ts :: rest =>
    if ts ≤ tsNext then true
    else needsDedupLoop dedupInterval (advanceTsNext tsNext ts dedupInterval) rest

/-- Lines 110-127. -/
def needsDedup (timestamps : List Int) (dedupInterval : Int) : Bool :=
  if timestamps.length < 2 ∨ dedupInterval ≤ 0 then false
  else
    match timestamps with
    | [] => false
    | t0 :: rest => needsDedupLoop dedupInterval (alignTsNext t0 dedupInterval) rest

/-- The effect of `dst = append(dst, x)` when `dst` was cut from `src[:0]`:
the write lands in `src` while `len(dst) < len(src)`. Returns `(src, dst)`. -/
def appendAliased {β : Type} (src dst : List β) (x : β) : List β × List β :=
  (if dst.length < src.length then src.set dst.length x else src, dst ++ [x])

/-- The local variables of the slow path together with the two backing arrays
as seen through `srcTimestamps` and `srcValues`. -/
structure ScanState (α : Type) where
  srcTimestamps : List Int
  srcValues : List α
  dstTimestamps : List Int
  dstValues : List α
  tsNext : Int
  prevTs : Int
  value : α
  prevValue : α

/-- Line 42 (and 84): `i > 0 && srcTimestamps[i] == srcTimestamps[i-1] && value < prevValue`,
where `ti` is `srcTimestamps[i]`. -/
def tieTest {α : Type} (lt : α → α → Bool) (srcTimestamps : List Int) (i : Nat)
    (ti : Int) (value prevValue : α) : Option Bool :=
  if 0 < i then (srcTimestamps[i - 1]?).map (fun tp => ti == tp && lt value prevValue)
  else some false

/-- One iteration `i` of the loop `for i, ts := range srcTimestamps[1:]`
(lines 40-58 and 82-99). `setPrevTs` is `true` for `DeduplicateSamples`, whose
body has `prevTs = srcTimestamps[i]` (line 47), and `false` for
`deduplicateSamplesDuringMerge`, whose body has no such assignment. -/
def loopBody {α : Type} (lt : α → α → Bool) (setPrevTs : Bool) (dedupInterval : Int)
    (i : Nat) (s : ScanState α) : Option (ScanState α) := do
  let ts ← s.srcTimestamps[i + 1]?
  let v ← s.srcValues[i]?
  let ti ← s.srcTimestamps[i]?
  let tie ← tieTest lt s.srcTimestamps i ti v s.prevValue
  let value := if tie then s.prevValue else v
  let prevTs := if setPrevTs then ti else s.prevTs
  if ts ≤ s.tsNext then
    some { s with value := value, prevValue := value, prevTs := prevTs }
  else
    let dt := appendAliased s.srcTimestamps s.dstTimestamps ti
    let dv := appendAliased s.srcValues s.dstValues value
    some { srcTimestamps := dt.1, srcValues := dv.1, dstTimestamps := dt.2, dstValues := dv.2,
           tsNext := advanceTsNext s.tsNext ts dedupInterval,
           prevTs := prevTs, value := value, prevValue := value }

/-- The loop itself: `n` iterations starting at index `i`. -/
def scanLoop {α : Type} (lt : α → α → Bool) (setPrevTs : Bool) (dedupInterval : Int) :
    Nat → Nat → ScanState α → Option (ScanState α)
  | 0, _, s => some s
  | n + 1, i, s => (loopBody lt setPrevTs dedupInterval i s).bind
      (scanLoop lt setPrevTs dedupInterval n (i + 1))

/-- Lines 60-67 and 100-107: the last sample is appended after the loop.
`lenT` and `lenV` are `len(srcTimestamps)` and `len(srcValues)`. -/
def scanFinish {α : Type} (lt : α → α → Bool) (lenT lenV : Nat) (s : ScanState α) :
    Option (List Int × List α) := do
  let ts ← s.srcTimestamps[lenT - 1]?
  let v ← s.srcValues[lenV - 1]?
  let dt := appendAliased s.srcTimestamps s.dstTimestamps ts
  let v := if ts == s.prevTs && lt v s.value then s.value else v
  let dv := appendAliased s.srcValues s.dstValues v
  some (dt.2, dv.2)

/-- The common text of `DeduplicateSamples` (lines 28-68) and
`deduplicateSamplesDuringMerge` (lines 70-108); see `loopBody` for `setPrevTs`. -/
def dedupScan {α : Type} [Zero α] (lt : α → α → Bool) (setPrevTs : Bool)
    (srcTimestamps : List Int) (srcValues : List α) (dedupInterval : Int) :
    Option (List Int × List α) :=
  if needsDedup srcTimestamps dedupInterval = false then
    some (srcTimestamps, srcValues)
  else do
    let t0 ← srcTimestamps[0]?
    let s0 : ScanState α :=
      { srcTimestamps := srcTimestamps, srcValues := srcValues,
        dstTimestamps := [], dstValues := [],
        tsNext := alignTsNext t0 dedupInterval, prevTs := 0, value := 0, prevValue := 0 }
    let s ← scanLoop lt setPrevTs dedupInterval (srcTimestamps.length - 1) 0 s0
    scanFinish lt srcTimestamps.length srcValues.length s

/-- Lines 28-68. `lt a b` is the `float64` comparison `a < b`. -/
def DeduplicateSamples {α : Type} [Zero α] (lt : α → α → Bool)
    (srcTimestamps : List Int) (srcValues : List α) (dedupInterval : Int) :
    Option (List Int × List α) :=
  dedupScan lt true srcTimestamps srcValues dedupInterval

/-- Lines 70-108: timestamps and values are both `int64`. -/
def deduplicateSamplesDuringMerge (srcTimestamps srcValues : List Int) (dedupInterval : Int) :
    Option (List Int × List Int) :=
  dedupScan (fun a b => decide (a < b)) false srcTimestamps srcValues dedupInterval

/-- The `<` of a totally ordered value type, as a Boolean test. -/
def ltOf {α : Type} [LinearOrder α] (a b : α) : Bool := decide (a < b)

/-- Lines 42-45 (and 63-65): the value kept for a sample `(t, v)` that follows
a sample with timestamp `tp` and kept value `vp`. -/
def carry {α : Type} (lt : α → α → Bool) (tp : Int) (vp : α) (t : Int) (v : α) : α :=
  if (t == tp && lt v vp) = true then vp else v

/-- The slow path as a function of the current sample `(t, value)` (its kept
value already computed), the boundary `tsNext` and the samples still ahead. -/
def pureScan {α : Type} (lt : α → α → Bool) (setPrevTs : Bool) (dedupInterval : Int) :
    Int → Int → α → List (Int × α) → List (Int × α)
  | _, t, value, [] => [(t, value)]
  | tsNext, t, value, [(t', v')] =>
    let fin := (t', carry lt (if setPrevTs then t else 0) value t' v')
    if t' ≤ tsNext then [fin] else [(t, value), fin]
  | tsNext, t, value, (t', v') :: x :: rest =>
    if t' ≤ tsNext then
      pureScan lt setPrevTs dedupInterval tsNext t' (carry lt t value t' v') (x :: rest)
    else
      (t, value) :: pureScan lt setPrevTs dedupInterval (advanceTsNext tsNext t' dedupInterval)
        t' (carry lt t value t' v') (x :: rest)

/-- The value computed by lines 41-45 in iteration `i`. -/
def stepValue {α : Type} (lt : α → α → Bool) (T : List Int) (i : Nat) (pv : α)
    (ti : Int) (vi : α) : α :=
  if 0 < i then carry lt (T.getD (i - 1) 0) pv ti vi else vi

/-- What holds of the buffers at the start of iteration `i`: the cells not yet
overwritten are those of the inputs `T` and `V`, and at most `i` pairs were
written. -/
structure Inv {α : Type} (T : List Int) (V : List α) (i : Nat) (s : ScanState α) : Prop where
  lenT : s.srcTimestamps.length = T.length
  lenV : s.srcValues.length = V.length
  lenD : s.dstValues.length = s.dstTimestamps.length
  le : s.dstTimestamps.length ≤ i
  agreeT : ∀ j, s.dstTimestamps.length ≤ j → s.srcTimestamps[j]? = T[j]?
  agreeV : ∀ j, s.dstTimestamps.length ≤ j → s.srcValues[j]? = V[j]?
  full : s.dstTimestamps.length = i → s.srcTimestamps = T

/-- The result of `dedupScan` on parallel inputs, read off the immutable scan. -/
def pureDedup {α : Type} (lt : α → α → Bool) (setPrevTs : Bool)
    (T : List Int) (V : List α) (I : Int) : List Int × List α :=
  if needsDedup T I = false then (T, V)
  else
    match T.zip V with
    | [] => (T, V)
    | (t0, v0) :: rest =>
      ((pureScan lt setPrevTs I (alignTsNext t0 I) t0 v0 rest).map Prod.fst,
       (pureScan lt setPrevTs I (alignTsNext t0 I) t0 v0 rest).map Prod.snd)

/-- The timestamps kept by the slow path: `t` is the current timestamp and the
list holds the timestamps still ahead. -/
def keepTs (I : Int) : Int → Int → List Int → List Int
  | _, t, [] => [t]
  | tsNext, t, t' :: rest =>
    if t' ≤ tsNext then keepTs I tsNext t' rest
    else t :: keepTs I (advanceTsNext tsNext t' I) t' rest

/-- The timestamps returned on parallel inputs. -/
def dedupTs (T : List Int) (I : Int) : List Int :=
  if needsDedup T I = false then T
  else
    match T with
    | [] => []
    | t0 :: rest => keepTs I (alignTsNext t0 I) t0 rest

/-- The grid bucket number `k` of width `I`: the timestamps `t` with
`(k - 1) * I < t ≤ k * I`. -/
def InBucket (I k t : Int) : Prop := (k - 1) * I < t ∧ t ≤ k * I

instance (I k t : Int) : Decidable (InBucket I k t) :=
  inferInstanceAs (Decidable ((k - 1) * I < t ∧ t ≤ k * I))

/-- A grid line lies between `a` and `b`: `a ≤ k * I < b` for some integer `k`. -/
def GridBetween (I a b : Int) : Prop := ∃ k : Int, a ≤ k * I ∧ k * I < b

/-- The slow path of `DeduplicateSamples` over immutable inputs: `pureScan`
with `setPrevTs = true`, where the last sample needs no case of its own. -/
def emitLoop {α : Type} (lt : α → α → Bool) (I : Int) :
    Int → Int → α → List (Int × α) → List (Int × α)
  | _, t, value, [] => [(t, value)]
  | tsNext, t, value, (t', v') :: rest =>
    if t' ≤ tsNext then emitLoop lt I tsNext t' (carry lt t value t' v') rest
    else (t, value) :: emitLoop lt I (advanceTsNext tsNext t' I) t' (carry lt t value t' v') rest

/-- The value `v` is the greatest of the values that `samples` has at
timestamp `t`, and it is attained. -/
def IsMaxAt {α : Type} [LinearOrder α] (samples : List (Int × α)) (t : Int) (v : α) : Prop :=
  (t, v) ∈ samples ∧ ∀ p ∈ samples, p.1 = t → p.2 ≤ v

/-- The timestamp `x` is the greatest timestamp of `ts` in its grid bucket:
for some `k`, `x` lies in bucket `k`, occurs in `ts`, and no timestamp of `ts`
in bucket `k` exceeds it. -/
def IsBucketLast (I : Int) (ts : List Int) (x : Int) : Prop :=
  ∃ k : Int, InBucket I k x ∧ x ∈ ts ∧ ∀ u ∈ ts, InBucket I k u → u ≤ x

/-- The boundary `tsNext` is the upper edge of the grid bucket of `t`. -/
def IsBoundaryOf (I tsNext t : Int) : Prop := I ∣ tsNext ∧ tsNext - I < t ∧ t ≤ tsNext

/-- Lines 33-67 taken on their own: the slow path of `DeduplicateSamples` (and
lines 75-107 of `deduplicateSamplesDuringMerge`) without the `needsDedup` test. -/
def slowPath {α : Type} [Zero α] (lt : α → α → Bool) (setPrevTs : Bool)
    (srcTimestamps : List Int) (srcValues : List α) (dedupInterval : Int) :
    Option (List Int × List α) := do
  let t0 ← srcTimestamps[0]?
  let s0 : ScanState α :=
    { srcTimestamps := srcTimestamps, srcValues := srcValues,
      dstTimestamps := [], dstValues := [],
      tsNext := alignTsNext t0 dedupInterval, prevTs := 0, value := 0, prevValue := 0 }
  let s ← scanLoop lt setPrevTs dedupInterval (srcTimestamps.length - 1) 0 s0
  scanFinish lt srcTimestamps.length srcValues.length s

/-- The integer `b` is the smallest integer `≥ t` that is congruent to `0`
modulo `I`. -/
def IsCeilToGrid (I t b : Int) : Prop := I ∣ b ∧ t ≤ b ∧ ∀ m : Int, I ∣ m → t ≤ m → b ≤ m

/-- The successive values of `tsNext` in the loop of `needsDedup` (lines
114-125): the value on entry, then the value after each update, up to the
iteration that returns. -/
def needsDedupTsNexts (dedupInterval : Int) : Int → List Int → List Int
  | tsNext, [] => [tsNext]
  | tsNext, ts :: rest =>
    if ts ≤ tsNext then [tsNext]
    else tsNext :: needsDedupTsNexts dedupInterval (advanceTsNext tsNext ts dedupInterval) rest

/-- The effect of `dst = append(dst, x)` when `dst` is a fresh buffer that
shares nothing with `src`. Returns `(src, dst)`. -/
def appendFresh {β : Type} (src dst : List β) (x : β) : List β × List β :=
  (src, dst ++ [x])

/-- The loop body of lines 40-58 (and 82-99) writing into fresh output buffers:
`loopBody` with `appendFresh` in place of `appendAliased`. -/
def loopBodyFresh {α : Type} (lt : α → α → Bool) (setPrevTs : Bool) (dedupInterval : Int)
    (i : Nat) (s : ScanState α) : Option (ScanState α) := do
  let ts ← s.srcTimestamps[i + 1]?
  let v ← s.srcValues[i]?
  let ti ← s.srcTimestamps[i]?
  let tie ← tieTest lt s.srcTimestamps i ti v s.prevValue
  let value := if tie then s.prevValue else v
  let prevTs := if setPrevTs then ti else s.prevTs
  if ts ≤ s.tsNext then
    some { s with value := value, prevValue := value, prevTs := prevTs }
  else
    let dt := appendFresh s.srcTimestamps s.dstTimestamps ti
    let dv := appendFresh s.srcValues s.dstValues value
    some { srcTimestamps := dt.1, srcValues := dv.1, dstTimestamps := dt.2, dstValues := dv.2,
           tsNext := advanceTsNext s.tsNext ts dedupInterval,
           prevTs := prevTs, value := value, prevValue := value }

/-- The loop writing into fresh output buffers: `n` iterations starting at index `i`. -/
def scanLoopFresh {α : Type} (lt : α → α → Bool) (setPrevTs : Bool) (dedupInterval : Int) :
    Nat → Nat → ScanState α → Option (ScanState α)
  | 0, _, s => some s
  | n + 1, i, s => (loopBodyFresh lt setPrevTs dedupInterval i s).bind
      (scanLoopFresh lt setPrevTs dedupInterval n (i + 1))

/-- Lines 60-67 (and 100-107) writing into fresh output buffers. -/
def scanFinishFresh {α : Type} (lt : α → α → Bool) (lenT lenV : Nat) (s : ScanState α) :
    Option (List Int × List α) := do
  let ts ← s.srcTimestamps[lenT - 1]?
  let v ← s.srcValues[lenV - 1]?
  let dt := appendFresh s.srcTimestamps s.dstTimestamps ts
  let v := if ts == s.prevTs && lt v s.value then s.value else v
  let dv := appendFresh s.srcValues s.dstValues v
  some (dt.2, dv.2)

/-- Lines 33-67 (and 75-107) with `dstTimestamps` and `dstValues` allocated
afresh instead of cut from `srcTimestamps[:0]` and `srcValues[:0]`. -/
def slowPathFresh {α : Type} [Zero α] (lt : α → α → Bool) (setPrevTs : Bool)
    (srcTimestamps : List Int) (srcValues : List α) (dedupInterval : Int) :
    Option (List Int × List α) := do
  let t0 ← srcTimestamps[0]?
  let s0 : ScanState α :=
    { srcTimestamps := srcTimestamps, srcValues := srcValues,
      dstTimestamps := [], dstValues := [],
      tsNext := alignTsNext t0 dedupInterval, prevTs := 0, value := 0, prevValue := 0 }
  let s ← scanLoopFresh lt setPrevTs dedupInterval (srcTimestamps.length - 1) 0 s0
  scanFinishFresh lt srcTimestamps.length srcValues.length s

/-- The state `s` of the in-place scan seen with the input buffers `T` and `V`
untouched: the state of the scan that writes into fresh buffers. -/
def freshView {α : Type} (T : List Int) (V : List α) (s : ScanState α) : ScanState α :=
  { s with srcTimestamps := T, srcValues := V }

/-- The timestamp `t` is an `int64` and `t + I - 1`, the sum that the source
forms to find the boundary of `t`, does not exceed `MaxInt64`. -/
def NoOverflow (I t : Int) : Prop := MinInt64 ≤ t ∧ t + I - 1 ≤ MaxInt64

instance (I t : Int) : Decidable (NoOverflow I t) :=
  inferInstanceAs (Decidable (MinInt64 ≤ t ∧ t + I - 1 ≤ MaxInt64))

/-- The boundary `N` held by `needsDedup` on the output against the boundary `S`
held by the scan on the input: both are `int64` grid lines and `N ≤ S`. -/
def BoundaryPair (I N S : Int) : Prop :=
  I ∣ N ∧ I ∣ S ∧ N ≤ S ∧ MinInt64 ≤ N ∧ S ≤ MaxInt64

/-- A `float64` as far as `<` tells values apart: not a number, or a number. -/
inductive Float64 where
  | nan : Float64
  | num (q : ℚ) : Float64
  deriving DecidableEq

instance : Zero Float64 := ⟨Float64.num 0⟩

/-- Go's `<` on `float64`: false as soon as one operand is NaN. -/
def Float64.lt : Float64 → Float64 → Bool
  | Float64.num a, Float64.num b => decide (a < b)
  | _, _ => false

/-! ## Lemmas -/

theorem set_self_of_getElem? {β : Type} (l : List β) (i : Nat) (x : β)
    (h : l[i]? = some x) : l.set i x = l := by
  induction l generalizing i with
  | nil => simp
  | cons a l ih =>
    cases i with
    | zero => simp at h; simp [h]
    | succ i => simp at h; simp [ih i h]

theorem loopBody_spec {α : Type} (lt : α → α → Bool) (flag : Bool) (I : Int)
    (T : List Int) (V : List α) (i : Nat) (s : ScanState α) (ti tn : Int) (vi : α)
    (h : Inv T V i s) (hti : T[i]? = some ti) (htn : T[i + 1]? = some tn)
    (hvi : V[i]? = some vi) :
    ∃ s', loopBody lt flag I i s = some s' ∧ Inv T V (i + 1) s' ∧
      s'.value = stepValue lt T i s.prevValue ti vi ∧
      s'.prevValue = stepValue lt T i s.prevValue ti vi ∧
      s'.prevTs = (if flag then ti else s.prevTs) ∧
      (if tn ≤ s.tsNext then
        s'.dstTimestamps = s.dstTimestamps ∧ s'.dstValues = s.dstValues ∧ s'.tsNext = s.tsNext
       else
        s'.dstTimestamps = s.dstTimestamps ++ [ti] ∧
        s'.dstValues = s.dstValues ++ [stepValue lt T i s.prevValue ti vi] ∧
        s'.tsNext = advanceTsNext s.tsNext tn I) := by
  have r1 : s.srcTimestamps[i + 1]? = some tn := by
    rw [h.agreeT (i + 1) (by have := h.le; omega), htn]
  have r2 : s.srcValues[i]? = some vi := by rw [h.agreeV i h.le, hvi]
  have r3 : s.srcTimestamps[i]? = some ti := by rw [h.agreeT i h.le, hti]
  have r4 : 0 < i → s.srcTimestamps[i - 1]? = T[i - 1]? := by
    intro hi
    rcases Nat.lt_or_ge s.dstTimestamps.length i with hlt | hge
    · exact h.agreeT (i - 1) (by omega)
    · rw [h.full (le_antisymm h.le hge)]
  have hval : tieTest lt s.srcTimestamps i ti vi s.prevValue =
      some (decide (0 < i) && (ti == T.getD (i - 1) 0 && lt vi s.prevValue)) := by
    unfold tieTest
    by_cases hi : 0 < i
    · have hlt : i - 1 < T.length := by
        have := (List.getElem?_eq_some_iff.1 hti).1
        omega
      simp [hi, r4 hi, List.getD, List.getElem?_eq_getElem hlt]
    · simp [hi]
  have hsv : (if (decide (0 < i) && (ti == T.getD (i - 1) 0 && lt vi s.prevValue)) = true
      then s.prevValue else vi) = stepValue lt T i s.prevValue ti vi := by
    unfold stepValue carry
    by_cases hi : 0 < i <;> simp [hi]
  simp only [loopBody, r1, r2, r3, hval, Option.bind_eq_bind, Option.some_bind, hsv]
  by_cases hle : tn ≤ s.tsNext
  · simp only [hle, if_true]
    refine ⟨_, rfl, ?_, rfl, rfl, rfl, rfl, rfl, rfl⟩
    exact
      { lenT := h.lenT, lenV := h.lenV, lenD := h.lenD, le := Nat.le_succ_of_le h.le,
        agreeT := h.agreeT, agreeV := h.agreeV,
        full := fun hc => absurd hc (by have := h.le; simp only at this ⊢; omega) }
  · simp only [hle, if_false]
    refine ⟨_, rfl, ?_, rfl, rfl, rfl, rfl, rfl, rfl⟩
    have hc := h.le
    refine
      { lenT := ?_, lenV := ?_, lenD := ?_, le := ?_, agreeT := ?_, agreeV := ?_, full := ?_ }
    · simp only [appendAliased]; split <;> simp [h.lenT]
    · simp only [appendAliased]; split <;> simp [h.lenV]
    · simp [appendAliased, h.lenD]
    · simp [appendAliased]; exact hc
    · intro j hj
      simp only [appendAliased, List.length_append, List.length_singleton] at hj ⊢
      split
      · rw [List.getElem?_set_ne (by omega)]
        exact h.agreeT j (by omega)
      · exact h.agreeT j (by omega)
    · intro j hj
      simp only [appendAliased, List.length_append, List.length_singleton] at hj ⊢
      split
      · rw [h.lenD, List.getElem?_set_ne (by omega)]
        exact h.agreeV j (by omega)
      · exact h.agreeV j (by omega)
    · intro hj
      simp only [appendAliased, List.length_append, List.length_singleton] at hj ⊢
      have hci : s.dstTimestamps.length = i := by omega
      have hfull := h.full hci
      split
      · rw [hci, hfull]
        exact set_self_of_getElem? T i ti hti
      · exact hfull

theorem drop_zip_cons {β γ : Type} (T : List β) (V : List γ) (i : Nat) (t : β) (v : γ)
    (hT : T[i]? = some t) (hV : V[i]? = some v) :
    (T.zip V).drop i = (t, v) :: (T.zip V).drop (i + 1) := by
  induction T generalizing V i with
  | nil => simp at hT
  | cons a T ih =>
    cases V with
    | nil => simp at hV
    | cons b V =>
      cases i with
      | zero => simp at hT hV; simp [hT, hV]
      | succ i =>
        simp at hT hV
        simpa using ih V i hT hV

theorem drop_zip_nil {β γ : Type} (T : List β) (V : List γ) (i : Nat)
    (h : T.length ≤ i) : (T.zip V).drop i = [] := by
  apply List.drop_eq_nil_of_le
  simp only [List.length_zip]
  omega

theorem getElem?_some_of_lt {β : Type} (l : List β) (i : Nat) (h : i < l.length) :
    ∃ x, l[i]? = some x := ⟨l[i], List.getElem?_eq_getElem h⟩

theorem scanLoop_spec {α : Type} (lt : α → α → Bool) (flag : Bool) (I : Int)
    (T : List Int) (V : List α) (hlen : V.length = T.length) :
    ∀ (k i : Nat) (s : ScanState α) (ti : Int) (vi : α), Inv T V i s →
      i + k + 2 = T.length → T[i]? = some ti → V[i]? = some vi →
      (flag = false → s.prevTs = 0) →
      (scanLoop lt flag I (k + 1) i s).bind (scanFinish lt T.length V.length) =
        some
          (s.dstTimestamps ++ (pureScan lt flag I s.tsNext ti
              (stepValue lt T i s.prevValue ti vi) ((T.zip V).drop (i + 1))).map Prod.fst,
           s.dstValues ++ (pureScan lt flag I s.tsNext ti
              (stepValue lt T i s.prevValue ti vi) ((T.zip V).drop (i + 1))).map Prod.snd) := by
  intro k
  induction k with
  | zero =>
    intro i s ti vi hinv hik hti hvi hprev
    obtain ⟨tn, htn⟩ := getElem?_some_of_lt T (i + 1) (by omega)
    obtain ⟨vn, hvn⟩ := getElem?_some_of_lt V (i + 1) (by omega)
    obtain ⟨s', hs', hinv', hval, hpv, hpt, hout⟩ :=
      loopBody_spec lt flag I T V i s ti tn vi hinv hti htn hvi
    have hdrop : (T.zip V).drop (i + 1) = [(tn, vn)] := by
      rw [drop_zip_cons T V (i + 1) tn vn htn hvn, drop_zip_nil T V (i + 1 + 1) (by omega)]
    have e1 : T.length - 1 = i + 1 := by omega
    have e2 : V.length - 1 = i + 1 := by omega
    have r1 : s'.srcTimestamps[i + 1]? = some tn := by rw [hinv'.agreeT (i + 1) hinv'.le, htn]
    have r2 : s'.srcValues[i + 1]? = some vn := by rw [hinv'.agreeV (i + 1) hinv'.le, hvn]
    simp only [scanLoop, hs', Option.some_bind, scanFinish, e1, e2, r1, r2, Option.bind_eq_bind,
      hdrop, pureScan, appendAliased]
    have hpt' : s'.prevTs = if flag = true then ti else 0 := by
      cases flag
      · simpa [hprev rfl] using hpt
      · simpa using hpt
    rw [hpt', hval]
    by_cases hle : tn ≤ s.tsNext
    · simp only [hle, if_true] at hout ⊢
      simp [hout.1, hout.2.1, carry]
    · simp only [hle, if_false] at hout ⊢
      simp [hout.1, hout.2.1, carry]
  | succ k ih =>
    intro i s ti vi hinv hik hti hvi hprev
    obtain ⟨tn, htn⟩ := getElem?_some_of_lt T (i + 1) (by omega)
    obtain ⟨vn, hvn⟩ := getElem?_some_of_lt V (i + 1) (by omega)
    obtain ⟨tm, htm⟩ := getElem?_some_of_lt T (i + 2) (by omega)
    obtain ⟨vm, hvm⟩ := getElem?_some_of_lt V (i + 2) (by omega)
    obtain ⟨s', hs', hinv', hval, hpv, hpt, hout⟩ :=
      loopBody_spec lt flag I T V i s ti tn vi hinv hti htn hvi
    have hd1 := drop_zip_cons T V (i + 1) tn vn htn hvn
    have hd2 := drop_zip_cons T V (i + 1 + 1) tm vm htm hvm
    have hpt' : flag = false → s'.prevTs = 0 := by
      intro hf
      simpa [hf, hprev hf] using hpt
    have hnext := ih (i + 1) s' tn vn hinv' (by omega) htn hvn hpt'
    have hsv : stepValue lt T (i + 1) s'.prevValue tn vn =
        carry lt ti (stepValue lt T i s.prevValue ti vi) tn vn := by
      simp [stepValue, hpv, List.getD, hti]
    rw [scanLoop, hs', Option.some_bind, hnext, hsv, hd1, hd2]
    simp only [pureScan]
    by_cases hle : tn ≤ s.tsNext
    · simp only [hle, if_true] at hout ⊢
      rw [hout.1, hout.2.1, hout.2.2]
    · simp only [hle, if_false] at hout ⊢
      rw [hout.1, hout.2.1, hout.2.2]
      simp

theorem needsDedup_length {T : List Int} {I : Int} (h : needsDedup T I = true) :
    2 ≤ T.length ∧ 0 < I := by
  unfold needsDedup at h
  by_cases hc : T.length < 2 ∨ I ≤ 0
  · simp [hc] at h
  · simp only [not_or, not_lt, not_le] at hc
    exact hc

/-- On parallel inputs the in-place scan never indexes out of range and
returns what the scan over immutable inputs returns. -/
theorem dedupScan_eq_pure {α : Type} [Zero α] (lt : α → α → Bool) (flag : Bool)
    (T : List Int) (V : List α) (I : Int) (hlen : V.length = T.length) :
    dedupScan lt flag T V I = some (pureDedup lt flag T V I) := by
  unfold dedupScan pureDedup
  by_cases hn : needsDedup T I = false
  · simp [hn]
  · simp only [hn, if_false]
    have hn' : needsDedup T I = true := by simpa using hn
    obtain ⟨h2, _⟩ := needsDedup_length hn'
    match T, V, hlen, h2 with
    | t0 :: T', v0 :: V', hlen, h2 =>
      have hinv : Inv (t0 :: T') (v0 :: V') 0
          { srcTimestamps := t0 :: T', srcValues := v0 :: V',
            dstTimestamps := [], dstValues := [],
            tsNext := alignTsNext t0 I, prevTs := 0, value := (0 : α), prevValue := 0 } :=
        { lenT := rfl, lenV := rfl, lenD := rfl, le := Nat.le_refl _,
          agreeT := fun _ _ => rfl, agreeV := fun _ _ => rfl, full := fun _ => rfl }
      have hk : (t0 :: T').length - 1 = (T'.length - 1) + 1 := by
        simp only [List.length_cons] at h2 ⊢; omega
      have hspec := scanLoop_spec lt flag I (t0 :: T') (v0 :: V') hlen (T'.length - 1) 0 _ t0 v0
        hinv (by simp only [List.length_cons] at h2 ⊢; omega) (by simp) (by simp) (fun _ => rfl)
      simp only [List.getElem?_cons_zero, Option.bind_eq_bind, Option.some_bind, hk]
      rw [hspec]
      simp [stepValue]

theorem pureScan_map_fst {α : Type} (lt : α → α → Bool) (flag : Bool) (I : Int)
    (rest : List (Int × α)) : ∀ (tsNext t : Int) (value : α),
    (pureScan lt flag I tsNext t value rest).map Prod.fst = keepTs I tsNext t (rest.map Prod.fst) := by
  induction rest with
  | nil => intro tsNext t value; simp [pureScan, keepTs]
  | cons p rest ih =>
    intro tsNext t value
    obtain ⟨t', v'⟩ := p
    cases rest with
    | nil =>
      by_cases hle : t' ≤ tsNext <;> simp [pureScan, keepTs, hle]
    | cons x rest =>
      by_cases hle : t' ≤ tsNext
      · simp only [pureScan, hle, if_true, List.map_cons, keepTs]
        simpa using ih tsNext t' (carry lt t value t' v')
      · simp only [pureScan, hle, if_false, List.map_cons, keepTs]
        simpa using ih (advanceTsNext tsNext t' I) t' (carry lt t value t' v')

theorem map_fst_zip_of_length {β γ : Type} (T : List β) (V : List γ)
    (h : V.length = T.length) : (T.zip V).map Prod.fst = T := by
  induction T generalizing V with
  | nil => simp
  | cons a T ih =>
    cases V with
    | nil => simp at h
    | cons b V => simp at h; simp [ih V h]

theorem map_snd_zip_of_length {β γ : Type} (T : List β) (V : List γ)
    (h : V.length = T.length) : (T.zip V).map Prod.snd = V := by
  induction T generalizing V with
  | nil => cases V with
    | nil => rfl
    | cons b V => simp at h
  | cons a T ih =>
    cases V with
    | nil => simp at h
    | cons b V => simp at h; simp [ih V h]

theorem pureDedup_fst {α : Type} (lt : α → α → Bool) (flag : Bool)
    (T : List Int) (V : List α) (I : Int) (hlen : V.length = T.length) :
    (pureDedup lt flag T V I).1 = dedupTs T I := by
  unfold pureDedup dedupTs
  by_cases hn : needsDedup T I = false
  · simp [hn]
  · simp only [hn, if_false]
    match T, V, hlen with
    | [], [], _ => rfl
    | t0 :: T', v0 :: V', hlen =>
      simp only [List.zip_cons_cons, pureScan_map_fst]
      rw [map_fst_zip_of_length T' V' (by simpa using hlen)]
      simp

theorem keepTs_length_le (I : Int) (rest : List Int) :
    ∀ tsNext t, (keepTs I tsNext t rest).length ≤ rest.length + 1 := by
  induction rest with
  | nil => intro tsNext t; simp [keepTs]
  | cons t' rest ih =>
    intro tsNext t
    by_cases hle : t' ≤ tsNext
    · simp only [keepTs, hle, if_true, List.length_cons]
      exact Nat.le_succ_of_le (ih tsNext t')
    · simp only [keepTs, hle, if_false, List.length_cons]
      exact Nat.succ_le_succ (ih _ t')

theorem keepTs_ne_nil (I : Int) (rest : List Int) :
    ∀ tsNext t, keepTs I tsNext t rest ≠ [] := by
  induction rest with
  | nil => intro tsNext t; simp [keepTs]
  | cons t' rest ih =>
    intro tsNext t
    by_cases hle : t' ≤ tsNext
    · simp only [keepTs, hle, if_true]; exact ih tsNext t'
    · simp [keepTs, hle]

theorem keepTs_of_needsDedupLoop_false (I : Int) (rest : List Int) :
    ∀ tsNext t, needsDedupLoop I tsNext rest = false → keepTs I tsNext t rest = t :: rest := by
  induction rest with
  | nil => intro tsNext t _; simp [keepTs]
  | cons t' rest ih =>
    intro tsNext t h
    by_cases hle : t' ≤ tsNext
    · simp [needsDedupLoop, hle] at h
    · simp only [needsDedupLoop, hle, if_false] at h
      simp only [keepTs, hle, if_false]
      rw [ih _ t' h]

theorem keepTs_length_of_needsDedupLoop (I : Int) (rest : List Int) :
    ∀ tsNext t, needsDedupLoop I tsNext rest = true →
      (keepTs I tsNext t rest).length ≤ rest.length := by
  induction rest with
  | nil => intro tsNext t h; simp [needsDedupLoop] at h
  | cons t' rest ih =>
    intro tsNext t h
    by_cases hle : t' ≤ tsNext
    · simp only [keepTs, hle, if_true, List.length_cons]
      exact keepTs_length_le I rest tsNext t'
    · simp only [needsDedupLoop, hle, if_false] at h
      simp only [keepTs, hle, if_false, List.length_cons]
      exact Nat.succ_le_succ (ih _ t' h)

theorem pureDedup_snd_length {α : Type} (lt : α → α → Bool) (flag : Bool)
    (T : List Int) (V : List α) (I : Int) (hlen : V.length = T.length) :
    (pureDedup lt flag T V I).2.length = (pureDedup lt flag T V I).1.length := by
  unfold pureDedup
  by_cases hn : needsDedup T I = false
  · simp [hn, hlen]
  · simp only [hn, if_false]
    cases h : T.zip V with
    | nil => simp [hlen]
    | cons p rest => simp

theorem dedupTs_of_pos (t0 : Int) (rest : List Int) (I : Int) (hI : 0 < I) :
    dedupTs (t0 :: rest) I = keepTs I (alignTsNext t0 I) t0 rest := by
  unfold dedupTs
  by_cases hn : needsDedup (t0 :: rest) I = false
  · simp only [hn, if_true]
    cases rest with
    | nil => simp [keepTs]
    | cons t1 rest =>
      have hc : ¬ ((t0 :: t1 :: rest).length < 2 ∨ I ≤ 0) := by
        simp only [List.length_cons, not_or, not_lt, not_le]
        exact ⟨by omega, hI⟩
      simp only [needsDedup, hc, if_false] at hn
      rw [keepTs_of_needsDedupLoop_false I (t1 :: rest) _ t0 hn]
  · simp [hn]

theorem dedupTs_length_le (T : List Int) (I : Int) : (dedupTs T I).length ≤ T.length := by
  unfold dedupTs
  by_cases hn : needsDedup T I = false
  · simp [hn]
  · simp only [hn, if_false]
    cases T with
    | nil => simp
    | cons t0 rest => exact keepTs_length_le I rest _ t0

theorem dedupTs_ne_nil (T : List Int) (I : Int) (h : T ≠ []) : dedupTs T I ≠ [] := by
  unfold dedupTs
  by_cases hn : needsDedup T I = false
  · simp [hn, h]
  · simp only [hn, if_false]
    cases T with
    | nil => exact absurd rfl h
    | cons t0 rest => exact keepTs_ne_nil I rest _ t0

theorem dedupTs_length_lt_iff (T : List Int) (I : Int) :
    needsDedup T I = true ↔ (dedupTs T I).length < T.length := by
  unfold dedupTs
  by_cases hn : needsDedup T I = false
  · simp [hn]
  · have hn' : needsDedup T I = true := by simpa using hn
    simp only [hn, if_false, hn', true_iff]
    obtain ⟨h2, hI⟩ := needsDedup_length hn'
    cases T with
    | nil => simp at h2
    | cons t0 rest =>
      have hc : ¬ ((t0 :: rest).length < 2 ∨ I ≤ 0) := by
        simp only [not_or, not_lt, not_le]
        exact ⟨h2, hI⟩
      simp only [needsDedup, hc, if_false] at hn'
      have := keepTs_length_of_needsDedupLoop I rest _ t0 hn'
      simp only [Bool.true_eq_false, if_false, List.length_cons]
      omega

theorem dedupScan_fast {α : Type} [Zero α] (lt : α → α → Bool) (flag : Bool)
    (T : List Int) (V : List α) (I : Int) (h : needsDedup T I = false) :
    dedupScan lt flag T V I = some (T, V) := by
  simp [dedupScan, h]

theorem needsDedup_false_of_trivial (T : List Int) (I : Int) (h : I ≤ 0 ∨ T.length ≤ 1) :
    needsDedup T I = false := by
  have hc : T.length < 2 ∨ I ≤ 0 := by
    rcases h with h | h
    · exact Or.inr h
    · exact Or.inl (by omega)
  simp [needsDedup, hc]

theorem dedupScan_shorter_iff {α : Type} [Zero α] (lt : α → α → Bool) (flag : Bool)
    (T : List Int) (V : List α) (I : Int) (hlen : V.length = T.length) :
    ∃ out, dedupScan lt flag T V I = some out ∧
      (needsDedup T I = true ↔ out.1.length < T.length) ∧
      (needsDedup T I = false → out = (T, V)) := by
  refine ⟨_, dedupScan_eq_pure lt flag T V I hlen, ?_, ?_⟩
  · rw [pureDedup_fst lt flag T V I hlen]
    exact dedupTs_length_lt_iff T I
  · intro h
    simp [pureDedup, h]

/-! ### The boundary arithmetic -/

theorem wrapInt64_range (x : Int) : MinInt64 ≤ wrapInt64 x ∧ wrapInt64 x ≤ MaxInt64 := by
  unfold wrapInt64 MinInt64 MaxInt64
  omega

theorem wrapInt64_of_range (x : Int) (h1 : MinInt64 ≤ x) (h2 : x ≤ MaxInt64) :
    wrapInt64 x = x := by
  unfold wrapInt64 MinInt64 MaxInt64 at *
  omega

theorem wrapInt64_sub_one (a : Int) : wrapInt64 (wrapInt64 a - 1) = wrapInt64 (a - 1) := by
  unfold wrapInt64
  omega

theorem wrapInt64_le (x : Int) (h : MinInt64 ≤ x) : wrapInt64 x ≤ x := by
  unfold wrapInt64 MinInt64 at *
  omega

theorem wrapInt64_add_interval (X I : Int) (hX1 : MinInt64 ≤ X) (hX2 : X ≤ MaxInt64)
    (hI : 0 < I) (hI64 : I ≤ MaxInt64) :
    wrapInt64 (X + I) = X + I ∨ wrapInt64 (X + I) < X := by
  unfold wrapInt64 MinInt64 MaxInt64 at *
  omega

theorem tmod_sign_neg (a b : Int) (ha : a ≤ 0) (hb : 0 < b) : a.tmod b ≤ 0 ∧ -b < a.tmod b := by
  obtain ⟨n, rfl⟩ : ∃ n : Nat, a = -(n : Int) := ⟨a.natAbs, by omega⟩
  obtain ⟨m, rfl⟩ : ∃ m : Nat, b = (m : Int) := ⟨b.natAbs, by omega⟩
  cases n with
  | zero => simp; omega
  | succ n =>
    have e : (-((n + 1 : Nat) : Int)) = Int.negSucc n := rfl
    rw [e]
    have h : n.succ % m < m := Nat.mod_lt _ (by omega)
    show -Int.ofNat (n.succ % m) ≤ 0 ∧ -(m : Int) < -Int.ofNat (n.succ % m)
    simp only [Int.ofNat_eq_coe]
    omega

/-- The subtraction `tsNext -= tsNext % dedupInterval` never wraps: its result
lies between `0` and `tsNext`. -/
theorem sub_tmod_bounds (x I : Int) (hI : 0 < I) :
    (0 ≤ x → 0 ≤ x - x.tmod I ∧ x - x.tmod I ≤ x ∧ x - I < x - x.tmod I) ∧
    (x ≤ 0 → x ≤ x - x.tmod I ∧ x - x.tmod I ≤ 0 ∧ x - x.tmod I < x + I) := by
  have hdiv := Int.tdiv_add_tmod x I
  refine ⟨fun hx => ?_, fun hx => ?_⟩
  · have h1 := Int.tmod_nonneg I hx
    have h2 := Int.tmod_lt_of_pos x hI
    have h3 : 0 ≤ x.tdiv I := Int.tdiv_nonneg hx (le_of_lt hI)
    have h4 : 0 ≤ I * x.tdiv I := Int.mul_nonneg (le_of_lt hI) h3
    refine ⟨by omega, by omega, by omega⟩
  · obtain ⟨h1, h2⟩ := tmod_sign_neg x I hx hI
    have h3 : I * x.tdiv I ≤ 0 := by
      by_contra hcon
      have hpos : 0 < x.tdiv I := by
        by_contra hc
        exact hcon (Int.mul_nonpos_of_nonneg_of_nonpos (le_of_lt hI) (not_lt.1 hc))
      have : I * 1 ≤ I * x.tdiv I := Int.mul_le_mul_of_nonneg_left (by omega) (le_of_lt hI)
      omega
    refine ⟨by omega, by omega, by omega⟩

theorem alignTsNext_eq_sub (t I : Int) (hI : 0 < I) :
    alignTsNext t I = wrapInt64 (t + I - 1) - (wrapInt64 (t + I - 1)).tmod I := by
  have hr := wrapInt64_range (t + I - 1)
  have hb := sub_tmod_bounds (wrapInt64 (t + I - 1)) I hI
  simp only [alignTsNext, wrapInt64_sub_one]
  apply wrapInt64_of_range
  · rcases le_total 0 (wrapInt64 (t + I - 1)) with h | h
    · have := (hb.1 h).1
      unfold MinInt64 at *; omega
    · have := (hb.2 h).1
      omega
  · rcases le_total 0 (wrapInt64 (t + I - 1)) with h | h
    · have := (hb.1 h).2.1
      omega
    · have := (hb.2 h).2.1
      unfold MaxInt64 at *; omega

theorem alignTsNext_dvd (t I : Int) (hI : 0 < I) : I ∣ alignTsNext t I := by
  refine ⟨(wrapInt64 (t + I - 1)).tdiv I, ?_⟩
  have h := Int.tdiv_add_tmod (wrapInt64 (t + I - 1)) I
  rw [alignTsNext_eq_sub t I hI]
  linarith

theorem alignTsNext_range (t I : Int) :
    MinInt64 ≤ alignTsNext t I ∧ alignTsNext t I ≤ MaxInt64 :=
  wrapInt64_range _

theorem alignTsNext_of_noOverflow (t I : Int) (hI : 0 < I) (h : NoOverflow I t) :
    alignTsNext t I = (t + I - 1) - (t + I - 1).tmod I := by
  rw [alignTsNext_eq_sub t I hI, wrapInt64_of_range (t + I - 1) (by have := h.1; omega) h.2]

theorem alignTsNext_ge (t I : Int) (hI : 0 < I) (h : NoOverflow I t) :
    t ≤ alignTsNext t I := by
  have h1 := Int.tmod_lt_of_pos (t + I - 1) hI
  rw [alignTsNext_of_noOverflow t I hI h]
  omega

theorem alignTsNext_sub_lt (t I : Int) (hI : 0 < I) (ht : -I < t) :
    alignTsNext t I - I < t := by
  have hle := wrapInt64_le (t + I - 1) (by unfold MinInt64; omega)
  have hb := sub_tmod_bounds (wrapInt64 (t + I - 1)) I hI
  rw [alignTsNext_eq_sub t I hI]
  rcases le_total 0 (wrapInt64 (t + I - 1)) with h | h
  · have := (hb.1 h).2.1
    omega
  · have := (hb.2 h).2.1
    omega

theorem le_of_dvd_of_lt_add {I a z : Int} (hI : 0 < I) (ha : I ∣ a) (hz : I ∣ z)
    (h : a < z + I) : a ≤ z := by
  obtain ⟨j, rfl⟩ := ha
  obtain ⟨k, rfl⟩ := hz
  have hjk : j ≤ k := by
    by_contra hcon
    have : I * (k + 1) ≤ I * j := Int.mul_le_mul_of_nonneg_left (by omega) (le_of_lt hI)
    have e : I * (k + 1) = I * k + I := by ring
    omega
  exact Int.mul_le_mul_of_nonneg_left hjk (le_of_lt hI)

/-- Wrapped or not, the boundary computed for `t > -I` does not exceed any grid
line at or after `t`. -/
theorem alignTsNext_le_of_dvd (t I Z : Int) (hI : 0 < I) (ht : -I < t) (hZ : I ∣ Z)
    (htZ : t ≤ Z) : alignTsNext t I ≤ Z := by
  apply le_of_dvd_of_lt_add hI (alignTsNext_dvd t I hI) hZ
  have hle := wrapInt64_le (t + I - 1) (by unfold MinInt64; omega)
  have hb := sub_tmod_bounds (wrapInt64 (t + I - 1)) I hI
  rw [alignTsNext_eq_sub t I hI]
  rcases le_total 0 (wrapInt64 (t + I - 1)) with h | h
  · have := (hb.1 h).2.1
    omega
  · have := (hb.2 h).2.1
    have hZ0 : 0 ≤ Z := by
      by_contra hneg
      have : Z ≤ -I := le_of_dvd_of_lt_add hI hZ (Dvd.dvd.neg_right (dvd_refl I))
        (show Z < -I + I by omega)
      omega
    omega

theorem advanceTsNext_range (tsNext t I : Int) :
    MinInt64 ≤ advanceTsNext tsNext t I ∧ advanceTsNext tsNext t I ≤ MaxInt64 := by
  simp only [advanceTsNext]
  split
  · exact alignTsNext_range t I
  · exact wrapInt64_range _

/-- An update of an `int64` boundary below `t` either re-aligns it to `t` or
adds the interval without wrapping. -/
theorem advanceTsNext_cases (tsNext t I : Int) (hI : 0 < I) (hI64 : I ≤ MaxInt64)
    (hX1 : MinInt64 ≤ tsNext) (hX2 : tsNext ≤ MaxInt64) (hlt : tsNext < t) :
    advanceTsNext tsNext t I = alignTsNext t I ∨
      (advanceTsNext tsNext t I = tsNext + I ∧ t ≤ tsNext + I) := by
  unfold advanceTsNext
  by_cases h : wrapInt64 (tsNext + I) < t
  · left; simp only [h, if_true]
  · right
    simp only [h, if_false]
    rcases wrapInt64_add_interval tsNext I hX1 hX2 hI hI64 with e | e
    · rw [e] at h ⊢
      exact ⟨rfl, not_lt.1 h⟩
    · omega

theorem advanceTsNext_of_noOverflow (tsNext t I : Int) (hI : 0 < I)
    (hX : MinInt64 ≤ tsNext) (hlt : tsNext < t) (h : NoOverflow I t) :
    advanceTsNext tsNext t I = if tsNext + I < t then alignTsNext t I else tsNext + I := by
  unfold advanceTsNext
  rw [wrapInt64_of_range (tsNext + I) (by omega) (by have := h.2; omega)]

theorem advanceTsNext_ge (tsNext t I : Int) (hI : 0 < I) (h : NoOverflow I t) :
    t ≤ advanceTsNext tsNext t I := by
  unfold advanceTsNext
  by_cases hc : wrapInt64 (tsNext + I) < t
  · simp only [hc, if_true]; exact alignTsNext_ge t I hI h
  · simp only [hc, if_false]; omega

theorem advanceTsNext_dvd (tsNext t I : Int) (hI : 0 < I) (hd : I ∣ tsNext)
    (hX : MinInt64 ≤ tsNext) (hlt : tsNext < t) (h : NoOverflow I t) :
    I ∣ advanceTsNext tsNext t I := by
  rw [advanceTsNext_of_noOverflow tsNext t I hI hX hlt h]
  split
  · exact alignTsNext_dvd t I hI
  · exact Dvd.dvd.add hd (dvd_refl I)

theorem advanceTsNext_sub_lt (tsNext t I : Int) (hI : 0 < I) (ht : -I < t)
    (hX : MinInt64 ≤ tsNext) (hlt : tsNext < t) (h : NoOverflow I t) :
    advanceTsNext tsNext t I - I < t := by
  rw [advanceTsNext_of_noOverflow tsNext t I hI hX hlt h]
  split
  · exact alignTsNext_sub_lt t I hI ht
  · omega

theorem advanceTsNext_gt (tsNext t I : Int) (hI : 0 < I)
    (hlt : tsNext < t) (h : NoOverflow I t) :
    tsNext < advanceTsNext tsNext t I := by
  have := advanceTsNext_ge tsNext t I hI h
  omega

/-! ### Order of the kept timestamps -/

theorem keepTs_subset (I : Int) (rest : List Int) :
    ∀ tsNext t x, x ∈ keepTs I tsNext t rest → x ∈ t :: rest := by
  induction rest with
  | nil => intro tsNext t x hx; simpa [keepTs] using hx
  | cons t' rest ih =>
    intro tsNext t x hx
    by_cases hle : t' ≤ tsNext
    · simp only [keepTs, hle, if_true] at hx
      exact List.mem_cons_of_mem _ (ih _ _ _ hx)
    · simp only [keepTs, hle, if_false, List.mem_cons] at hx
      rcases hx with hx | hx
      · simp [hx]
      · exact List.mem_cons_of_mem _ (ih _ _ _ hx)

theorem keepTs_ge (I : Int) (rest : List Int) (tsNext t : Int)
    (hs : (t :: rest).Sorted (· ≤ ·)) : ∀ x ∈ keepTs I tsNext t rest, t ≤ x := by
  intro x hx
  have hm := keepTs_subset I rest tsNext t x hx
  rcases List.mem_cons.1 hm with h | h
  · exact le_of_eq h.symm
  · exact (List.sorted_cons.1 hs).1 x h

theorem keepTs_pairwise_grid (I : Int) (hI : 0 < I) (rest : List Int) :
    ∀ tsNext t, t ≤ tsNext → I ∣ tsNext → (t :: rest).Sorted (· ≤ ·) →
      (∀ u ∈ t :: rest, NoOverflow I u) →
      (keepTs I tsNext t rest).Pairwise (GridBetween I) := by
  induction rest with
  | nil => intro tsNext t _ _ _ _; simp [keepTs]
  | cons t' rest ih =>
    intro tsNext t hle hd hs hno
    have hs' : (t' :: rest).Sorted (· ≤ ·) := (List.sorted_cons.1 hs).2
    have hno' : ∀ u ∈ t' :: rest, NoOverflow I u := fun u hu => hno u (List.mem_cons_of_mem _ hu)
    have hnt' : NoOverflow I t' := hno' t' (List.mem_cons_self _ _)
    have hXr : MinInt64 ≤ tsNext := le_trans (hno t (List.mem_cons_self _ _)).1 hle
    by_cases hc : t' ≤ tsNext
    · simp only [keepTs, hc, if_true]
      exact ih tsNext t' hc hd hs' hno'
    · simp only [keepTs, hc, if_false]
      refine List.pairwise_cons.2 ⟨?_, ?_⟩
      · intro y hy
        have hy' := keepTs_ge I rest _ t' hs' y hy
        obtain ⟨k, hk⟩ := hd
        exact ⟨k, by rw [mul_comm, ← hk]; exact hle, by rw [mul_comm, ← hk]; omega⟩
      · exact ih _ t' (advanceTsNext_ge tsNext t' I hI hnt')
          (advanceTsNext_dvd tsNext t' I hI hd hXr (not_le.1 hc) hnt') hs' hno'

theorem GridBetween.lt {I a b : Int} (h : GridBetween I a b) : a < b := by
  obtain ⟨k, h1, h2⟩ := h
  omega

theorem GridBetween.not_inBucket {I a b : Int} (hI : 0 < I) (h : GridBetween I a b) (k : Int) :
    ¬ (InBucket I k a ∧ InBucket I k b) := by
  rintro ⟨⟨ha, _⟩, ⟨_, hb⟩⟩
  obtain ⟨j, h1, h2⟩ := h
  have hjk : j < k := by
    by_contra hcon
    have : k * I ≤ j * I := Int.mul_le_mul_of_nonneg_right (not_lt.1 hcon) (le_of_lt hI)
    omega
  have : j * I ≤ (k - 1) * I := Int.mul_le_mul_of_nonneg_right (by omega) (le_of_lt hI)
  omega

theorem dedupTs_pairwise_grid (T : List Int) (I : Int) (hI : 0 < I)
    (hs : T.Sorted (· ≤ ·)) (hno : ∀ u ∈ T, NoOverflow I u) :
    (dedupTs T I).Pairwise (GridBetween I) := by
  cases T with
  | nil => simp [dedupTs, needsDedup]
  | cons t0 rest =>
    rw [dedupTs_of_pos t0 rest I hI]
    exact keepTs_pairwise_grid I hI rest _ t0
      (alignTsNext_ge t0 I hI (hno t0 (List.mem_cons_self _ _))) (alignTsNext_dvd t0 I hI) hs hno

/-! ### Values of the scan -/

theorem pureScan_true_eq {α : Type} (lt : α → α → Bool) (I : Int) (rest : List (Int × α)) :
    ∀ (tsNext t : Int) (value : α),
      pureScan lt true I tsNext t value rest = emitLoop lt I tsNext t value rest := by
  induction rest with
  | nil => intro tsNext t value; simp [pureScan, emitLoop]
  | cons p rest ih =>
    intro tsNext t value
    obtain ⟨t', v'⟩ := p
    cases rest with
    | nil => by_cases hle : t' ≤ tsNext <;> simp [pureScan, emitLoop, hle]
    | cons x rest =>
      by_cases hle : t' ≤ tsNext
      · rw [pureScan, emitLoop]
        simp only [hle, if_true]
        exact ih tsNext t' _
      · rw [pureScan, emitLoop]
        simp only [hle, if_false]
        rw [ih]

theorem zip_map_fst_map_snd {β γ : Type} (l : List (β × γ)) :
    (l.map Prod.fst).zip (l.map Prod.snd) = l := by
  induction l with
  | nil => rfl
  | cons p l ih => simp [ih]

theorem emitLoop_of_needsDedupLoop_false {α : Type} (lt : α → α → Bool) (I : Int) (hI : 0 < I)
    (rest : List (Int × α)) : ∀ (tsNext t : Int) (value : α), t ≤ tsNext →
      (∀ p ∈ rest, NoOverflow I p.1) →
      needsDedupLoop I tsNext (rest.map Prod.fst) = false →
      emitLoop lt I tsNext t value rest = (t, value) :: rest := by
  induction rest with
  | nil => intro tsNext t value _ _ _; simp [emitLoop]
  | cons p rest ih =>
    intro tsNext t value hle hno h
    obtain ⟨t', v'⟩ := p
    have hnt' : NoOverflow I t' := hno (t', v') (List.mem_cons_self _ _)
    by_cases hc : t' ≤ tsNext
    · simp [needsDedupLoop, hc] at h
    · simp only [List.map_cons, needsDedupLoop, hc, if_false] at h
      have hne : (t' == t) = false := by
        simp only [beq_eq_false_iff_ne, ne_eq]
        omega
      have hcar : carry lt t value t' v' = v' := by simp [carry, hne]
      rw [emitLoop]
      simp only [hc, if_false, hcar]
      rw [ih _ t' v' (advanceTsNext_ge tsNext t' I hI hnt')
        (fun p hp => hno p (List.mem_cons_of_mem _ hp)) h]

/-- For a positive interval the result on parallel non-empty inputs is that of
the slow path, whether or not `needsDedup` holds. -/
theorem pureDedup_of_pos {α : Type} (lt : α → α → Bool) (t0 : Int) (T : List Int)
    (v0 : α) (V : List α) (I : Int) (hI : 0 < I) (hlen : V.length = T.length)
    (hno : ∀ u ∈ t0 :: T, NoOverflow I u) :
    pureDedup lt true (t0 :: T) (v0 :: V) I =
      ((emitLoop lt I (alignTsNext t0 I) t0 v0 (T.zip V)).map Prod.fst,
       (emitLoop lt I (alignTsNext t0 I) t0 v0 (T.zip V)).map Prod.snd) := by
  have hnoz : ∀ p ∈ T.zip V, NoOverflow I p.1 := by
    rintro ⟨a, b⟩ hp
    exact hno a (List.mem_cons_of_mem _ (List.of_mem_zip hp).1)
  unfold pureDedup
  by_cases hn : needsDedup (t0 :: T) I = false
  · simp only [hn, if_true]
    have hloop : needsDedupLoop I (alignTsNext t0 I) ((T.zip V).map Prod.fst) = false := by
      rw [map_fst_zip_of_length T V hlen]
      cases T with
      | nil => rfl
      | cons t1 T =>
        have hc : ¬ ((t0 :: t1 :: T).length < 2 ∨ I ≤ 0) := by
          simp only [List.length_cons, not_or, not_lt, not_le]
          exact ⟨by omega, hI⟩
        simpa only [needsDedup, hc, if_false] using hn
    rw [emitLoop_of_needsDedupLoop_false lt I hI _ _ t0 v0
      (alignTsNext_ge t0 I hI (hno t0 (List.mem_cons_self _ _))) hnoz hloop]
    simp [map_fst_zip_of_length T V hlen, map_snd_zip_of_length T V hlen]
  · simp only [hn, if_false, List.zip_cons_cons, pureScan_true_eq]
    simp

theorem carry_ltOf {α : Type} [LinearOrder α] (tp : Int) (vp : α) (t : Int) (v : α) :
    carry ltOf tp vp t v = if t = tp ∧ v < vp then vp else v := by
  simp [carry, ltOf]

theorem le_carry_ltOf {α : Type} [LinearOrder α] (tp : Int) (vp : α) (t : Int) (v : α) :
    v ≤ carry ltOf tp vp t v := by
  rw [carry_ltOf]
  split
  · rename_i h; exact le_of_lt h.2
  · exact le_refl v

theorem IsMaxAt.step {α : Type} [LinearOrder α] (t : Int) (value : α) (t' : Int) (v' : α)
    (rest : List (Int × α)) (hs : (t :: t' :: rest.map Prod.fst).Sorted (· ≤ ·))
    (x : Int) (v : α) (h : IsMaxAt ((t', carry ltOf t value t' v') :: rest) x v) :
    IsMaxAt ((t, value) :: (t', v') :: rest) x v := by
  obtain ⟨hmem, hmax⟩ := h
  have htt : t ≤ t' := (List.sorted_cons.1 hs).1 t' (List.mem_cons_self _ _)
  have hrest : ∀ q ∈ rest, t' ≤ q.1 := fun q hq =>
    (List.sorted_cons.1 (List.sorted_cons.1 hs).2).1 q.1 (List.mem_map_of_mem _ hq)
  have hx : t' ≤ x := by
    rcases List.mem_cons.1 hmem with h | h
    · exact le_of_eq (congrArg Prod.fst h).symm
    · exact hrest _ h
  have hcar := hmax (t', carry ltOf t value t' v') (List.mem_cons_self _ _)
  refine ⟨?_, ?_⟩
  · rcases List.mem_cons.1 hmem with h | h
    · rw [carry_ltOf] at h
      split at h
      · rename_i hc
        rw [h, hc.1]
        exact List.mem_cons_self _ _
      · rw [h]
        exact List.mem_cons_of_mem _ (List.mem_cons_self _ _)
    · exact List.mem_cons_of_mem _ (List.mem_cons_of_mem _ h)
  · intro p hp hpx
    rcases List.mem_cons.1 hp with h | h
    · subst h
      have htx : t' = x := le_antisymm hx (by simpa [← hpx] using htt)
      have h1 := hcar htx
      have hte : t' = t := by simpa [← hpx] using htx
      rw [carry_ltOf] at h1
      split at h1
      · exact h1
      · rename_i hc
        have : ¬ v' < value := fun hlt => hc ⟨hte, hlt⟩
        exact le_trans (not_lt.1 this) h1
    · rcases List.mem_cons.1 h with h | h
      · subst h
        exact le_trans (le_carry_ltOf t value t' v') (hcar hpx)
      · exact hmax p (List.mem_cons_of_mem _ h) hpx

theorem emitLoop_isMaxAt {α : Type} [LinearOrder α] (I : Int) (hI : 0 < I)
    (rest : List (Int × α)) : ∀ (tsNext t : Int) (value : α), t ≤ tsNext →
      (t :: rest.map Prod.fst).Sorted (· ≤ ·) → (∀ q ∈ rest, NoOverflow I q.1) →
      ∀ p ∈ emitLoop ltOf I tsNext t value rest, IsMaxAt ((t, value) :: rest) p.1 p.2 := by
  induction rest with
  | nil =>
    intro tsNext t value _ _ _ p hp
    simp only [emitLoop, List.mem_singleton] at hp
    subst hp
    exact ⟨List.mem_cons_self _ _, fun q hq _ => by
      simp only [List.mem_singleton] at hq
      rw [hq]⟩
  | cons q rest ih =>
    intro tsNext t value hle hs hno p hp
    obtain ⟨t', v'⟩ := q
    have hs' : (t' :: rest.map Prod.fst).Sorted (· ≤ ·) := (List.sorted_cons.1 hs).2
    have hno' : ∀ q ∈ rest, NoOverflow I q.1 := fun q hq => hno q (List.mem_cons_of_mem _ hq)
    have hnt' : NoOverflow I t' := hno (t', v') (List.mem_cons_self _ _)
    by_cases hc : t' ≤ tsNext
    · simp only [emitLoop, hc, if_true] at hp
      exact IsMaxAt.step t value t' v' rest hs p.1 p.2 (ih tsNext t' _ hc hs' hno' p hp)
    · simp only [emitLoop, hc, if_false, List.mem_cons] at hp
      rcases hp with hp | hp
      · subst hp
        refine ⟨List.mem_cons_self _ _, ?_⟩
        intro r hr hrt
        rcases List.mem_cons.1 hr with h | h
        · rw [h]
        · exfalso
          have h1 : t' ≤ r.1 := by
            rcases List.mem_cons.1 h with h | h
            · rw [h]
            · exact (List.sorted_cons.1 hs').1 r.1 (List.mem_map_of_mem _ h)
          simp only at hrt
          omega
      · exact IsMaxAt.step t value t' v' rest hs p.1 p.2
          (ih _ t' _ (advanceTsNext_ge tsNext t' I hI hnt') hs' hno' p hp)

/-! ### Buckets -/

theorem IsBoundaryOf.inBucket {I tsNext t : Int} (h : IsBoundaryOf I tsNext t) :
    ∃ k : Int, tsNext = k * I ∧ InBucket I k t := by
  obtain ⟨⟨k, hk⟩, h1, h2⟩ := h
  refine ⟨k, by rw [hk, mul_comm], ?_, ?_⟩
  · have : (k - 1) * I = tsNext - I := by rw [hk]; ring
    omega
  · have : k * I = tsNext := by rw [hk]; ring
    omega

theorem InBucket.index_le {I k j t u : Int} (hI : 0 < I) (ht : InBucket I k t)
    (hu : InBucket I j u) (htu : t ≤ u) : k ≤ j := by
  by_contra hcon
  have h1 : j * I ≤ (k - 1) * I :=
    Int.mul_le_mul_of_nonneg_right (by omega) (le_of_lt hI)
  have := ht.1
  have := hu.2
  omega

theorem InBucket.index_unique {I k j t : Int} (hI : 0 < I) (hk : InBucket I k t)
    (hj : InBucket I j t) : k = j :=
  le_antisymm (hk.index_le hI hj (le_refl t)) (hj.index_le hI hk (le_refl t))

theorem alignTsNext_isBoundaryOf (t I : Int) (hI : 0 < I) (ht : -I < t)
    (h : NoOverflow I t) : IsBoundaryOf I (alignTsNext t I) t :=
  ⟨alignTsNext_dvd t I hI, alignTsNext_sub_lt t I hI ht, alignTsNext_ge t I hI h⟩

theorem advanceTsNext_isBoundaryOf (tsNext t I : Int) (hI : 0 < I) (ht : -I < t)
    (hd : I ∣ tsNext) (hX : MinInt64 ≤ tsNext) (hlt : tsNext < t) (h : NoOverflow I t) :
    IsBoundaryOf I (advanceTsNext tsNext t I) t :=
  ⟨advanceTsNext_dvd tsNext t I hI hd hX hlt h, advanceTsNext_sub_lt tsNext t I hI ht hX hlt h,
    advanceTsNext_ge tsNext t I hI h⟩

theorem IsBucketLast.cons {I : Int} {t : Int} {l : List Int} {x : Int}
    (hs : (t :: l).Sorted (· ≤ ·)) (h : IsBucketLast I l x) : IsBucketLast I (t :: l) x := by
  obtain ⟨k, hk, hx, hmax⟩ := h
  refine ⟨k, hk, List.mem_cons_of_mem _ hx, ?_⟩
  intro u hu hku
  rcases List.mem_cons.1 hu with h | h
  · rw [h]; exact (List.sorted_cons.1 hs).1 x hx
  · exact hmax u h hku

theorem keepTs_mem_iff (I : Int) (hI : 0 < I) (rest : List Int) :
    ∀ tsNext t, IsBoundaryOf I tsNext t → (t :: rest).Sorted (· ≤ ·) →
      (∀ u ∈ rest, -I < u) → (∀ u ∈ t :: rest, NoOverflow I u) →
      ∀ x, x ∈ keepTs I tsNext t rest ↔ IsBucketLast I (t :: rest) x := by
  induction rest with
  | nil =>
    intro tsNext t hb _ _ _ x
    obtain ⟨k, _, hk⟩ := hb.inBucket
    simp only [keepTs, List.mem_singleton]
    constructor
    · intro hx
      subst hx
      exact ⟨k, hk, List.mem_singleton_self _, fun u hu _ => le_of_eq (List.mem_singleton.1 hu)⟩
    · rintro ⟨_, _, hx, _⟩
      exact List.mem_singleton.1 hx
  | cons t' rest ih =>
    intro tsNext t hb hs hgt hno x
    have hs' : (t' :: rest).Sorted (· ≤ ·) := (List.sorted_cons.1 hs).2
    have htt : t ≤ t' := (List.sorted_cons.1 hs).1 t' (List.mem_cons_self _ _)
    have hgt' : ∀ u ∈ rest, -I < u := fun u hu => hgt u (List.mem_cons_of_mem _ hu)
    have hno' : ∀ u ∈ t' :: rest, NoOverflow I u := fun u hu => hno u (List.mem_cons_of_mem _ hu)
    have hXr : MinInt64 ≤ tsNext := le_trans (hno t (List.mem_cons_self _ _)).1 hb.2.2
    obtain ⟨k0, hk0, hbk⟩ := hb.inBucket
    by_cases hc : t' ≤ tsNext
    · simp only [keepTs, hc, if_true]
      have hb' : IsBoundaryOf I tsNext t' := ⟨hb.1, by have := hb.2.1; omega, hc⟩
      rw [ih tsNext t' hb' hs' hgt' hno' x]
      constructor
      · exact IsBucketLast.cons hs
      · rintro ⟨k, hk, hx, hmax⟩
        have hx' : x ∈ t' :: rest := by
          rcases List.mem_cons.1 hx with h | h
          · have hkk : k0 = k := hbk.index_unique hI (h ▸ hk)
            have hbt' : InBucket I k t' := by
              rw [← hkk]
              refine ⟨by have := hbk.1; omega, by rw [← hk0]; exact hc⟩
            have := hmax t' (List.mem_cons_of_mem _ (List.mem_cons_self _ _)) hbt'
            have : t' = x := by omega
            rw [← this]
            exact List.mem_cons_self _ _
          · exact h
        exact ⟨k, hk, hx', fun u hu => hmax u (List.mem_cons_of_mem _ hu)⟩
    · simp only [keepTs, hc, if_false, List.mem_cons]
      have hlt : tsNext < t' := not_le.1 hc
      have hb' : IsBoundaryOf I (advanceTsNext tsNext t' I) t' :=
        advanceTsNext_isBoundaryOf tsNext t' I hI (hgt t' (List.mem_cons_self _ _)) hb.1 hXr hlt
          (hno' t' (List.mem_cons_self _ _))
      rw [ih _ t' hb' hs' hgt' hno' x]
      constructor
      · rintro (hx | hx)
        · subst hx
          refine ⟨k0, hbk, List.mem_cons_self _ _, ?_⟩
          intro u hu hku
          rcases List.mem_cons.1 hu with h | h
          · exact le_of_eq h
          · exfalso
            have h1 : t' ≤ u := by
              rcases List.mem_cons.1 h with h | h
              · exact le_of_eq h.symm
              · exact (List.sorted_cons.1 hs').1 u h
            have := hku.2
            omega
        · exact IsBucketLast.cons hs hx
      · rintro ⟨k, hk, hx, hmax⟩
        rcases List.mem_cons.1 hx with h | h
        · exact Or.inl h
        · exact Or.inr ⟨k, hk, h, fun u hu => hmax u (List.mem_cons_of_mem _ hu)⟩

theorem dedupTs_mem_iff (T : List Int) (I : Int) (hI : 0 < I) (hs : T.Sorted (· ≤ ·))
    (hgt : ∀ u ∈ T, -I < u) (hno : ∀ u ∈ T, NoOverflow I u) :
    ∀ x, x ∈ dedupTs T I ↔ IsBucketLast I T x := by
  intro x
  cases T with
  | nil =>
    simp only [dedupTs, needsDedup, List.length_nil, IsBucketLast, List.not_mem_nil]
    simp
  | cons t0 rest =>
    rw [dedupTs_of_pos t0 rest I hI]
    exact keepTs_mem_iff I hI rest _ t0
      (alignTsNext_isBoundaryOf t0 I hI (hgt t0 (List.mem_cons_self _ _))
        (hno t0 (List.mem_cons_self _ _))) hs
      (fun u hu => hgt u (List.mem_cons_of_mem _ hu)) hno x

theorem exists_last_in_bucket (I k : Int) (ts : List Int) (h : ∃ u ∈ ts, InBucket I k u) :
    ∃ m ∈ ts, InBucket I k m ∧ ∀ u ∈ ts, InBucket I k u → u ≤ m := by
  induction ts with
  | nil => obtain ⟨u, hu, _⟩ := h; simp at hu
  | cons a ts ih =>
    by_cases hts : ∃ u ∈ ts, InBucket I k u
    · obtain ⟨m, hm, hkm, hmax⟩ := ih hts
      by_cases ha : InBucket I k a ∧ m < a
      · refine ⟨a, List.mem_cons_self _ _, ha.1, ?_⟩
        intro u hu hku
        rcases List.mem_cons.1 hu with h | h
        · exact le_of_eq h
        · exact le_trans (hmax u h hku) (le_of_lt ha.2)
      · refine ⟨m, List.mem_cons_of_mem _ hm, hkm, ?_⟩
        intro u hu hku
        rcases List.mem_cons.1 hu with h | h
        · subst h
          by_contra hcon
          exact ha ⟨hku, not_le.1 hcon⟩
        · exact hmax u h hku
    · obtain ⟨u, hu, hku⟩ := h
      rcases List.mem_cons.1 hu with h | h
      · subst h
        refine ⟨u, List.mem_cons_self _ _, hku, ?_⟩
        intro w hw hkw
        rcases List.mem_cons.1 hw with h | h
        · exact le_of_eq h
        · exact absurd ⟨w, h, hkw⟩ hts
      · exact absurd ⟨u, h, hku⟩ hts

/-! ### `needsDedup` on the output -/

theorem advanceTsNext_of_le (tsNext t I : Int) (hw : wrapInt64 (tsNext + I) = tsNext + I)
    (hle : t ≤ tsNext + I) : advanceTsNext tsNext t I = tsNext + I := by
  have hc : ¬ tsNext + I < t := by omega
  simp only [advanceTsNext, hw, hc, if_false]

theorem advanceTsNext_cases' (tsNext t I : Int) (hI : 0 < I) (hI64 : I ≤ MaxInt64)
    (hX1 : MinInt64 ≤ tsNext) (hX2 : tsNext ≤ MaxInt64) (hlt : tsNext < t) :
    advanceTsNext tsNext t I = alignTsNext t I ∨
      (wrapInt64 (tsNext + I) = tsNext + I ∧ t ≤ tsNext + I ∧
        advanceTsNext tsNext t I = tsNext + I) := by
  by_cases h : wrapInt64 (tsNext + I) < t
  · left; simp only [advanceTsNext, h, if_true]
  · right
    rcases wrapInt64_add_interval tsNext I hX1 hX2 hI hI64 with e | e
    · have hle : t ≤ tsNext + I := by rw [e] at h; exact not_lt.1 h
      exact ⟨e, hle, advanceTsNext_of_le tsNext t I e hle⟩
    · omega

theorem BoundaryPair.advance {I N S c b : Int} (hI : 0 < I) (hI64 : I ≤ MaxInt64)
    (h : BoundaryPair I N S) (hSc : S < c) (hcb : c ≤ b)
    (hb : b = c ∨ b ≤ advanceTsNext S c I) (hgt : -I < b) :
    BoundaryPair I (advanceTsNext N b I) (advanceTsNext S c I) := by
  obtain ⟨hdN, hdS, hNS, hNmin, hSmax⟩ := h
  have hN := advanceTsNext_cases' N b I hI hI64 hNmin (le_trans hNS hSmax) (by omega)
  have hS := advanceTsNext_cases' S c I hI hI64 (le_trans hNmin hNS) hSmax hSc
  have hdN' : I ∣ advanceTsNext N b I := by
    rcases hN with e | ⟨_, _, e⟩
    · rw [e]; exact alignTsNext_dvd b I hI
    · rw [e]; exact Dvd.dvd.add hdN (dvd_refl I)
  have hdS' : I ∣ advanceTsNext S c I := by
    rcases hS with e | ⟨_, _, e⟩
    · rw [e]; exact alignTsNext_dvd c I hI
    · rw [e]; exact Dvd.dvd.add hdS (dvd_refl I)
  refine ⟨hdN', hdS', ?_, (advanceTsNext_range N b I).1, (advanceTsNext_range S c I).2⟩
  rcases hN with eN | ⟨hwN, hbN, eN⟩
  · rw [eN]
    rcases hb with hbc | hble
    · rcases hS with eS | ⟨_, hcS, eS⟩
      · rw [eS, hbc]
      · rw [eS]
        exact alignTsNext_le_of_dvd b I (S + I) hI hgt (Dvd.dvd.add hdS (dvd_refl I))
          (by omega)
    · exact alignTsNext_le_of_dvd b I _ hI hgt hdS' hble
  · rw [eN]
    rcases lt_or_eq_of_le hNS with hlt | heq
    · have : N + I ≤ S := le_of_dvd_of_lt_add hI (Dvd.dvd.add hdN (dvd_refl I)) hdS (by omega)
      omega
    · subst heq
      rw [advanceTsNext_of_le N c I hwN (by omega)]

/-- The scan holds the boundary `S` at the current timestamp `t`; `f o` is the
boundary `needsDedup` will hold on the output once it has read the timestamp
`o` that the scan emits for the bucket of `t`. Then `needsDedup` finds nothing
to collapse in what the scan emits. -/
theorem needsDedupLoop_keepTs (I : Int) (hI : 0 < I) (hI64 : I ≤ MaxInt64) (rest : List Int) :
    ∀ (S t : Int) (f : Int → Int), (t :: rest).Sorted (· ≤ ·) → (∀ u ∈ t :: rest, -I < u) →
      BoundaryPair I (f t) S → (∀ o, t ≤ o → o ≤ S → BoundaryPair I (f o) S) →
      ∃ o tail, keepTs I S t rest = o :: tail ∧ t ≤ o ∧ needsDedupLoop I (f o) tail = false := by
  induction rest with
  | nil =>
    intro S t f _ _ _ _
    exact ⟨t, [], rfl, le_refl t, rfl⟩
  | cons t' rest ih =>
    intro S t f hs hgt hcur hfut
    have hs' : (t' :: rest).Sorted (· ≤ ·) := (List.sorted_cons.1 hs).2
    have htt : t ≤ t' := (List.sorted_cons.1 hs).1 t' (List.mem_cons_self _ _)
    have hgt' : ∀ u ∈ t' :: rest, -I < u := fun u hu => hgt u (List.mem_cons_of_mem _ hu)
    have hgt1 : -I < t' := hgt' t' (List.mem_cons_self _ _)
    by_cases hc : t' ≤ S
    · obtain ⟨o, tail, hk, hto, hN⟩ := ih S t' f hs' hgt' (hfut t' htt hc)
        (fun o ho1 ho2 => hfut o (le_trans htt ho1) ho2)
      refine ⟨o, tail, ?_, le_trans htt hto, hN⟩
      simp only [keepTs, hc, if_true]
      exact hk
    · have hSc : S < t' := not_le.1 hc
      obtain ⟨o, tail, hk, hto, hN⟩ := ih (advanceTsNext S t' I) t'
        (fun o => advanceTsNext (f t) o I) hs' hgt'
        (hcur.advance hI hI64 hSc (le_refl t') (Or.inl rfl) hgt1)
        (fun o ho1 ho2 => hcur.advance hI hI64 hSc ho1 (Or.inr ho2) (by omega))
      refine ⟨t, o :: tail, ?_, le_refl t, ?_⟩
      · simp only [keepTs, hc, if_false]
        rw [hk]
      · have hfS : f t ≤ S := hcur.2.2.1
        have hno : ¬ o ≤ f t := by omega
        simp only [needsDedupLoop, hno, if_false]
        exact hN

theorem dedupTs_subset (T : List Int) (I : Int) : ∀ x ∈ dedupTs T I, x ∈ T := by
  intro x hx
  unfold dedupTs at hx
  by_cases hn : needsDedup T I = false
  · simpa [hn] using hx
  · simp only [hn, if_false] at hx
    cases T with
    | nil => simp at hx
    | cons t0 rest => exact keepTs_subset I rest _ t0 x hx

/-- With `int64` wrap-around taken into account: on sorted timestamps above
`-I`, `needsDedup` is false on what the scan returns. -/
theorem needsDedup_dedupTs (T : List Int) (I : Int) (hI : 0 < I) (hI64 : I ≤ MaxInt64)
    (hs : T.Sorted (· ≤ ·)) (hgt : ∀ u ∈ T, -I < u) : needsDedup (dedupTs T I) I = false := by
  cases T with
  | nil => simp [dedupTs, needsDedup]
  | cons t0 rest =>
    have hr := alignTsNext_range t0 I
    have hd := alignTsNext_dvd t0 I hI
    obtain ⟨o, tail, hk, hto, hN⟩ := needsDedupLoop_keepTs I hI hI64 rest (alignTsNext t0 I) t0
      (fun o => alignTsNext o I) hs hgt
      ⟨hd, hd, le_refl _, hr.1, hr.2⟩
      (fun o ho1 ho2 => ⟨alignTsNext_dvd o I hI, hd,
        alignTsNext_le_of_dvd o I _ hI
          (by have := hgt t0 (List.mem_cons_self _ _); omega) hd ho2,
        (alignTsNext_range o I).1, hr.2⟩)
    rw [dedupTs_of_pos t0 rest I hI, hk]
    unfold needsDedup
    split
    · rfl
    · exact hN

/-! ### The slow path on its own -/

theorem dedupScan_eq_slowPath {α : Type} [Zero α] (lt : α → α → Bool) (flag : Bool)
    (T : List Int) (V : List α) (I : Int) :
    dedupScan lt flag T V I =
      if needsDedup T I = false then some (T, V) else slowPath lt flag T V I := rfl

theorem keepTs_getLast? (I : Int) (rest : List Int) :
    ∀ tsNext t, (keepTs I tsNext t rest).getLast? = (t :: rest).getLast? := by
  induction rest with
  | nil => intro tsNext t; simp [keepTs]
  | cons t' rest ih =>
    intro tsNext t
    by_cases hle : t' ≤ tsNext
    · simp only [keepTs, hle, if_true, List.getLast?_cons_cons]
      exact ih tsNext t'
    · simp only [keepTs, hle, if_false, List.getLast?_cons_cons]
      have hne := keepTs_ne_nil I rest (advanceTsNext tsNext t' I) t'
      cases hk : keepTs I (advanceTsNext tsNext t' I) t' rest with
      | nil => exact absurd hk hne
      | cons a l =>
        rw [List.getLast?_cons_cons, ← hk]
        exact ih _ t'

theorem dedupTs_getLast? (T : List Int) (I : Int) : (dedupTs T I).getLast? = T.getLast? := by
  unfold dedupTs
  by_cases hn : needsDedup T I = false
  · simp [hn]
  · simp only [hn, if_false]
    cases T with
    | nil => rfl
    | cons t0 rest => exact keepTs_getLast? I rest _ t0

/-! ### One bucket -/

theorem emitLoop_length_one {α : Type} (lt : α → α → Bool) (I : Int) (rest : List (Int × α)) :
    ∀ (tsNext t : Int) (value : α), (∀ p ∈ rest, p.1 ≤ tsNext) →
      (emitLoop lt I tsNext t value rest).length = 1 := by
  induction rest with
  | nil => intro tsNext t value _; simp [emitLoop]
  | cons q rest ih =>
    intro tsNext t value h
    obtain ⟨t', v'⟩ := q
    have hle : t' ≤ tsNext := h (t', v') (List.mem_cons_self _ _)
    simp only [emitLoop, hle, if_true]
    exact ih tsNext t' _ (fun p hp => h p (List.mem_cons_of_mem _ hp))

theorem le_alignTsNext_of_inBucket (I k t0 u : Int) (hI : 0 < I) (ht0 : -I < t0)
    (hno : NoOverflow I t0) (h0 : InBucket I k t0) (hu : InBucket I k u) :
    u ≤ alignTsNext t0 I := by
  obtain ⟨k0, hk0, hb0⟩ := (alignTsNext_isBoundaryOf t0 I hI ht0 hno).inBucket
  have hkk : k0 = k := hb0.index_unique hI h0
  rw [hk0, hkk]
  exact hu.2

/-! ### Kept samples are input samples -/

theorem keepTs_sublist (I : Int) (rest : List Int) :
    ∀ tsNext t, (keepTs I tsNext t rest).Sublist (t :: rest) := by
  induction rest with
  | nil => intro tsNext t; simp [keepTs]
  | cons t' rest ih =>
    intro tsNext t
    by_cases hle : t' ≤ tsNext
    · simp only [keepTs, hle, if_true]
      exact List.Sublist.cons t (ih tsNext t')
    · simp only [keepTs, hle, if_false]
      exact List.Sublist.cons₂ t (ih _ t')

theorem dedupTs_sublist (T : List Int) (I : Int) : (dedupTs T I).Sublist T := by
  unfold dedupTs
  by_cases hn : needsDedup T I = false
  · simp [hn]
  · simp only [hn, if_false]
    cases T with
    | nil => exact List.Sublist.refl _
    | cons t0 rest => exact keepTs_sublist I rest _ t0

theorem exists_index_of_mem_zip {β γ : Type} (T : List β) (V : List γ) (p : β × γ)
    (h : p ∈ T.zip V) : ∃ j : Nat, T[j]? = some p.1 ∧ V[j]? = some p.2 := by
  obtain ⟨j, hj⟩ := List.mem_iff_getElem?.1 h
  exact ⟨j, List.getElem?_zip_eq_some.1 hj⟩

/-- The slow path run on its own, on parallel inputs of at least two samples,
never indexes out of range and returns the scan over immutable inputs. -/
theorem slowPath_eq_pure {α : Type} [Zero α] (lt : α → α → Bool) (flag : Bool)
    (t0 : Int) (T : List Int) (v0 : α) (V : List α) (I : Int)
    (hlen : V.length = T.length) (h2 : 1 ≤ T.length) :
    slowPath lt flag (t0 :: T) (v0 :: V) I =
      some ((pureScan lt flag I (alignTsNext t0 I) t0 v0 (T.zip V)).map Prod.fst,
            (pureScan lt flag I (alignTsNext t0 I) t0 v0 (T.zip V)).map Prod.snd) := by
  have hinv : Inv (t0 :: T) (v0 :: V) 0
      { srcTimestamps := t0 :: T, srcValues := v0 :: V,
        dstTimestamps := [], dstValues := [],
        tsNext := alignTsNext t0 I, prevTs := 0, value := (0 : α), prevValue := 0 } :=
    { lenT := rfl, lenV := rfl, lenD := rfl, le := Nat.le_refl _,
      agreeT := fun _ _ => rfl, agreeV := fun _ _ => rfl, full := fun _ => rfl }
  have hk : (t0 :: T).length - 1 = (T.length - 1) + 1 := by
    simp only [List.length_cons]; omega
  have hspec := scanLoop_spec lt flag I (t0 :: T) (v0 :: V) (by simp [hlen]) (T.length - 1) 0 _
    t0 v0 hinv (by simp only [List.length_cons]; omega) (by simp) (by simp) (fun _ => rfl)
  unfold slowPath
  simp only [List.getElem?_cons_zero, Option.bind_eq_bind, Option.some_bind, hk]
  rw [hspec]
  simp [stepValue]

/-! ### The boundary along the scan -/

theorem needsDedupTsNexts_length (I : Int) (rest : List Int) :
    ∀ tsNext, needsDedupLoop I tsNext rest = false ↔
      (needsDedupTsNexts I tsNext rest).length = rest.length + 1 := by
  induction rest with
  | nil => intro tsNext; simp [needsDedupLoop, needsDedupTsNexts]
  | cons t rest ih =>
    intro tsNext
    by_cases hle : t ≤ tsNext
    · simp [needsDedupLoop, needsDedupTsNexts, hle]
    · simp only [needsDedupLoop, needsDedupTsNexts, hle, if_false, List.length_cons]
      rw [ih]
      omega

theorem needsDedupTsNexts_head (I : Int) (rest : List Int) (tsNext : Int) :
    (needsDedupTsNexts I tsNext rest).head? = some tsNext := by
  cases rest with
  | nil => rfl
  | cons t rest =>
    by_cases hle : t ≤ tsNext <;> simp [needsDedupTsNexts, hle]

theorem needsDedupTsNexts_dvd (I : Int) (hI : 0 < I) (rest : List Int) :
    ∀ tsNext, I ∣ tsNext → MinInt64 ≤ tsNext → (∀ u ∈ rest, NoOverflow I u) →
      ∀ x ∈ needsDedupTsNexts I tsNext rest, I ∣ x := by
  induction rest with
  | nil =>
    intro tsNext hd _ _ x hx
    simp only [needsDedupTsNexts, List.mem_singleton] at hx
    rw [hx]; exact hd
  | cons t rest ih =>
    intro tsNext hd hX hno x hx
    by_cases hle : t ≤ tsNext
    · simp only [needsDedupTsNexts, hle, if_true, List.mem_singleton] at hx
      rw [hx]; exact hd
    · simp only [needsDedupTsNexts, hle, if_false, List.mem_cons] at hx
      rcases hx with hx | hx
      · rw [hx]; exact hd
      · exact ih _
          (advanceTsNext_dvd tsNext t I hI hd hX (not_le.1 hle) (hno t (List.mem_cons_self _ _)))
          (advanceTsNext_range tsNext t I).1
          (fun u hu => hno u (List.mem_cons_of_mem _ hu)) x hx

theorem needsDedupTsNexts_chain (I : Int) (hI : 0 < I) (rest : List Int) :
    ∀ tsNext, (∀ u ∈ rest, NoOverflow I u) →
      (needsDedupTsNexts I tsNext rest).Chain' (· < ·) := by
  induction rest with
  | nil => intro tsNext _; simp [needsDedupTsNexts]
  | cons t rest ih =>
    intro tsNext hno
    by_cases hle : t ≤ tsNext
    · simp [needsDedupTsNexts, hle]
    · simp only [needsDedupTsNexts, hle, if_false]
      refine List.Chain'.cons' (ih _ (fun u hu => hno u (List.mem_cons_of_mem _ hu))) ?_
      intro y hy
      rw [needsDedupTsNexts_head] at hy
      simp only [Option.mem_def, Option.some.injEq] at hy
      rw [← hy]
      exact advanceTsNext_gt tsNext t I hI (not_le.1 hle) (hno t (List.mem_cons_self _ _))

/-- What one iteration does to `tsNext` and to the timestamp buffer: nothing
when the next timestamp is within the boundary, otherwise the update of lines
53-57 and one in-place write of a timestamp read from the buffer. -/
theorem loopBody_tsNext {α : Type} (lt : α → α → Bool) (flag : Bool) (I : Int) (i : Nat)
    (s s' : ScanState α) (h : loopBody lt flag I i s = some s') :
    ∃ ts ti, s.srcTimestamps[i + 1]? = some ts ∧ s.srcTimestamps[i]? = some ti ∧
      (ts ≤ s.tsNext → s'.tsNext = s.tsNext ∧ s'.srcTimestamps = s.srcTimestamps) ∧
      (s.tsNext < ts → s'.tsNext = advanceTsNext s.tsNext ts I ∧
        s'.srcTimestamps = (appendAliased s.srcTimestamps s.dstTimestamps ti).1) := by
  unfold loopBody at h
  simp only [Option.bind_eq_bind, Option.bind_eq_some] at h
  obtain ⟨ts, hts, v, _, ti, hti, tie, _, h⟩ := h
  refine ⟨ts, ti, hts, hti, ?_, ?_⟩
  · intro hle
    simp only [hle, if_true, Option.some.injEq] at h
    rw [← h]
    exact ⟨rfl, rfl⟩
  · intro hlt
    have hle : ¬ ts ≤ s.tsNext := not_le.2 hlt
    simp only [hle, if_false, Option.some.injEq] at h
    rw [← h]
    exact ⟨rfl, rfl⟩

theorem mem_of_getElem?_eq_some {β : Type} (l : List β) (i : Nat) (x : β)
    (h : l[i]? = some x) : x ∈ l :=
  List.mem_iff_getElem?.2 ⟨i, h⟩

theorem loopBody_boundary {α : Type} (lt : α → α → Bool) (flag : Bool) (I : Int) (hI : 0 < I)
    (i : Nat) (s s' : ScanState α) (h : loopBody lt flag I i s = some s')
    (hd : I ∣ s.tsNext) (hX : MinInt64 ≤ s.tsNext)
    (hno : ∀ u ∈ s.srcTimestamps, NoOverflow I u) :
    (I ∣ s'.tsNext ∧ MinInt64 ≤ s'.tsNext ∧ ∀ u ∈ s'.srcTimestamps, NoOverflow I u) ∧
    ∃ t, s.srcTimestamps[i + 1]? = some t ∧ (t ≤ s.tsNext → s'.tsNext = s.tsNext) ∧
      (s.tsNext < t → s.tsNext < s'.tsNext) := by
  obtain ⟨ts, ti, hts, hti, h1, h2⟩ := loopBody_tsNext lt flag I i s s' h
  have hnts : NoOverflow I ts := hno ts (mem_of_getElem?_eq_some _ _ _ hts)
  have hnti : NoOverflow I ti := hno ti (mem_of_getElem?_eq_some _ _ _ hti)
  refine ⟨?_, ts, hts, fun hle => (h1 hle).1, fun hlt => ?_⟩
  · rcases le_or_lt ts s.tsNext with hle | hlt
    · obtain ⟨e1, e2⟩ := h1 hle
      rw [e1, e2]
      exact ⟨hd, hX, hno⟩
    · obtain ⟨e1, e2⟩ := h2 hlt
      rw [e1, e2]
      refine ⟨advanceTsNext_dvd s.tsNext ts I hI hd hX hlt hnts,
        (advanceTsNext_range s.tsNext ts I).1, ?_⟩
      intro u hu
      simp only [appendAliased] at hu
      split at hu
      · rcases List.mem_or_eq_of_mem_set hu with hu | hu
        · exact hno u hu
        · rw [hu]; exact hnti
      · exact hno u hu
  · rw [(h2 hlt).1]
    exact advanceTsNext_gt s.tsNext ts I hI hlt hnts

theorem scanLoop_boundary {α : Type} (lt : α → α → Bool) (flag : Bool) (I : Int) (hI : 0 < I) :
    ∀ (n i : Nat) (s s' : ScanState α), scanLoop lt flag I n i s = some s' →
      I ∣ s.tsNext → MinInt64 ≤ s.tsNext → (∀ u ∈ s.srcTimestamps, NoOverflow I u) →
      I ∣ s'.tsNext ∧ MinInt64 ≤ s'.tsNext ∧ ∀ u ∈ s'.srcTimestamps, NoOverflow I u := by
  intro n
  induction n with
  | zero =>
    intro i s s' h hd hX hno
    simp only [scanLoop, Option.some.injEq] at h
    rw [← h]; exact ⟨hd, hX, hno⟩
  | succ n ih =>
    intro i s s' h hd hX hno
    simp only [scanLoop, Option.bind_eq_some] at h
    obtain ⟨s1, h1, h2⟩ := h
    obtain ⟨⟨hd1, hX1, hno1⟩, _⟩ := loopBody_boundary lt flag I hI i s s1 h1 hd hX hno
    exact ih (i + 1) s1 s' h2 hd1 hX1 hno1

/-! ### In-place writes against fresh buffers -/

theorem loopBodyFresh_freshView {α : Type} (lt : α → α → Bool) (flag : Bool) (I : Int)
    (T : List Int) (V : List α) (i : Nat) (s : ScanState α) (ti tn : Int) (vi : α)
    (h : Inv T V i s) (hti : T[i]? = some ti) (htn : T[i + 1]? = some tn)
    (hvi : V[i]? = some vi) :
    ∃ s', loopBody lt flag I i s = some s' ∧ Inv T V (i + 1) s' ∧
      loopBodyFresh lt flag I i (freshView T V s) = some (freshView T V s') := by
  obtain ⟨s', hs', hinv', hval, hpv, hpt, hout⟩ :=
    loopBody_spec lt flag I T V i s ti tn vi h hti htn hvi
  refine ⟨s', hs', hinv', ?_⟩
  have htie : tieTest lt T i ti vi s.prevValue =
      some (decide (0 < i) && (ti == T.getD (i - 1) 0 && lt vi s.prevValue)) := by
    unfold tieTest
    by_cases hi : 0 < i
    · have hlt : i - 1 < T.length := by
        have := (List.getElem?_eq_some_iff.1 hti).1
        omega
      simp [hi, List.getD, List.getElem?_eq_getElem hlt]
    · simp [hi]
  have hsv : (if (decide (0 < i) && (ti == T.getD (i - 1) 0 && lt vi s.prevValue)) = true
      then s.prevValue else vi) = stepValue lt T i s.prevValue ti vi := by
    unfold stepValue carry
    by_cases hi : 0 < i <;> simp [hi]
  simp only [loopBodyFresh, freshView, htn, hvi, hti, htie, Option.bind_eq_bind,
    Option.some_bind, hsv, appendFresh]
  obtain ⟨a, b, c, d, e, f, g, k⟩ := s'
  simp only at hval hpv hpt hout
  by_cases hle : tn ≤ s.tsNext
  · simp only [hle, if_true] at hout ⊢
    obtain ⟨h1, h2, h3⟩ := hout
    rw [hval, hpv, hpt, h1, h2, h3]
  · simp only [hle, if_false] at hout ⊢
    obtain ⟨h1, h2, h3⟩ := hout
    rw [hval, hpv, hpt, h1, h2, h3]

theorem scanLoop_freshView {α : Type} (lt : α → α → Bool) (flag : Bool) (I : Int)
    (T : List Int) (V : List α) (hlen : V.length = T.length) :
    ∀ (n i : Nat) (s : ScanState α), Inv T V i s → i + n + 1 ≤ T.length →
      ∃ s', scanLoop lt flag I n i s = some s' ∧ Inv T V (i + n) s' ∧
        scanLoopFresh lt flag I n i (freshView T V s) = some (freshView T V s') := by
  intro n
  induction n with
  | zero => intro i s hinv _; exact ⟨s, rfl, hinv, rfl⟩
  | succ n ih =>
    intro i s hinv hin
    obtain ⟨ti, hti⟩ := getElem?_some_of_lt T i (by omega)
    obtain ⟨tn, htn⟩ := getElem?_some_of_lt T (i + 1) (by omega)
    obtain ⟨vi, hvi⟩ := getElem?_some_of_lt V i (by omega)
    obtain ⟨s1, hs1, hinv1, hf1⟩ :=
      loopBodyFresh_freshView lt flag I T V i s ti tn vi hinv hti htn hvi
    obtain ⟨s', hs', hinv', hf'⟩ := ih (i + 1) s1 hinv1 (by omega)
    refine ⟨s', ?_, ?_, ?_⟩
    · rw [scanLoop, hs1, Option.some_bind, hs']
    · have e : i + (n + 1) = i + 1 + n := by omega
      rw [e]; exact hinv'
    · rw [scanLoopFresh, hf1, Option.some_bind, hf']

theorem scanFinish_freshView {α : Type} (lt : α → α → Bool)
    (T : List Int) (V : List α) (hlen : V.length = T.length) (i : Nat) (s : ScanState α)
    (hinv : Inv T V i s) (hi : i + 1 = T.length) :
    ∃ out, scanFinish lt T.length V.length s = some out ∧
      scanFinishFresh lt T.length V.length (freshView T V s) = some out := by
  obtain ⟨tn, htn⟩ := getElem?_some_of_lt T i (by omega)
  obtain ⟨vn, hvn⟩ := getElem?_some_of_lt V i (by omega)
  have e1 : T.length - 1 = i := by omega
  have e2 : V.length - 1 = i := by omega
  have r1 : s.srcTimestamps[i]? = some tn := by rw [hinv.agreeT i hinv.le, htn]
  have r2 : s.srcValues[i]? = some vn := by rw [hinv.agreeV i hinv.le, hvn]
  refine ⟨(s.dstTimestamps ++ [tn],
    s.dstValues ++ [if (tn == s.prevTs && lt vn s.value) = true then s.value else vn]), ?_, ?_⟩
  · simp only [scanFinish, e1, e2, r1, r2, Option.bind_eq_bind, Option.some_bind, appendAliased]
  · simp only [scanFinishFresh, freshView, e1, e2, htn, hvn, Option.bind_eq_bind,
      Option.some_bind, appendFresh]

theorem Inv.read_prev {α : Type} {T : List Int} {V : List α} {i : Nat} {s : ScanState α}
    (h : Inv T V i s) (hi : 0 < i) : s.srcTimestamps[i - 1]? = T[i - 1]? := by
  rcases Nat.lt_or_ge s.dstTimestamps.length i with hlt | hge
  · exact h.agreeT (i - 1) (by omega)
  · rw [h.full (le_antisymm h.le hge)]

theorem needsDedupTsNexts_step (I : Int) (rest : List Int) :
    ∀ (tsNext : Int) (j : Nat) (x y : Int), (needsDedupTsNexts I tsNext rest)[j]? = some x →
      (needsDedupTsNexts I tsNext rest)[j + 1]? = some y →
      ∃ t, rest[j]? = some t ∧ x < t ∧ y = advanceTsNext x t I := by
  induction rest with
  | nil =>
    intro tsNext j x y _ hy
    simp [needsDedupTsNexts] at hy
  | cons t rest ih =>
    intro tsNext j x y hx hy
    by_cases hle : t ≤ tsNext
    · simp [needsDedupTsNexts, hle] at hy
    · simp only [needsDedupTsNexts, hle, if_false] at hx hy
      cases j with
      | zero =>
        simp only [List.getElem?_cons_zero, Option.some.injEq] at hx
        simp only [Nat.zero_add, List.getElem?_cons_succ] at hy
        have hh := needsDedupTsNexts_head I rest (advanceTsNext tsNext t I)
        rw [List.head?_eq_getElem?, hy] at hh
        simp only [Option.some.injEq] at hh
        refine ⟨t, List.getElem?_cons_zero, ?_, ?_⟩
        · rw [← hx]; exact not_le.1 hle
        · rw [← hx, hh]
      | succ j =>
        simp only [List.getElem?_cons_succ] at hx hy
        obtain ⟨u, hu, h1, h2⟩ := ih _ j x y hx hy
        exact ⟨u, by simpa using hu, h1, h2⟩

/-- Every pair the slow path emits is the current sample or a sample still
ahead: the value carried over a tie is the value of a sample with the same
timestamp. -/
theorem emitLoop_subset {α : Type} (lt : α → α → Bool) (I : Int) (samples : List (Int × α))
    (rest : List (Int × α)) : ∀ (tsNext t : Int) (value : α), (t, value) ∈ samples →
      (∀ q ∈ rest, q ∈ samples) → ∀ p ∈ emitLoop lt I tsNext t value rest, p ∈ samples := by
  induction rest with
  | nil =>
    intro tsNext t value h _ p hp
    simp only [emitLoop, List.mem_singleton] at hp
    rw [hp]; exact h
  | cons q rest ih =>
    obtain ⟨t', v'⟩ := q
    intro tsNext t value h hrest p hp
    have hq : (t', v') ∈ samples := hrest _ (List.mem_cons_self _ _)
    have hc : (t', carry lt t value t' v') ∈ samples := by
      unfold carry
      split
      · rename_i hc
        simp only [Bool.and_eq_true, beq_iff_eq] at hc
        rw [hc.1]; exact h
      · exact hq
    have hrest' : ∀ q ∈ rest, q ∈ samples := fun q hq => hrest q (List.mem_cons_of_mem _ hq)
    by_cases hle : t' ≤ tsNext
    · simp only [emitLoop, hle, if_true] at hp
      exact ih _ _ _ hc hrest' p hp
    · simp only [emitLoop, hle, if_false, List.mem_cons] at hp
      rcases hp with hp | hp
      · rw [hp]; exact h
      · exact ih _ _ _ hc hrest' p hp

/-! ## Properties -/

/-- C3 (code evaluated at the failing input). With timestamps `[1000, 1000, 1000]`,
values `[5, 9, 1]` and interval `1000`, `deduplicateSamplesDuringMerge` returns
the pair `(1000, 1)`: `prevTs` is never assigned in its loop, so the last
sample is not compared with the value carried for its timestamp, and the
maximum `9` of the values at timestamp `1000` is lost. -/
theorem deduplicateSamplesDuringMerge_last_tie :
    deduplicateSamplesDuringMerge [1000, 1000, 1000] [5, 9, 1] 1000 = some ([1000], [1]) ∧
    ¬ IsMaxAt (([1000, 1000, 1000] : List Int).zip ([5, 9, 1] : List Int)) 1000 1 ∧
    DeduplicateSamples (ltOf : Int → Int → Bool) [1000, 1000, 1000] [5, 9, 1] 1000
      = some ([1000], [9]) := by
  refine ⟨by decide, ?_, by decide⟩
  intro h
  exact absurd (h.2 (1000, 9) (by decide) rfl) (by decide)

/-- C5. For both entry points, on parallel inputs: the call returns, `needsDedup`
is true exactly when the returned timestamps are strictly fewer than the input
timestamps, and when it is false the returned timestamps and values are the
inputs. -/
theorem needsDedup_iff_output_shorter {α : Type} [Zero α] (lt : α → α → Bool)
    (ts : List Int) (values : List α) (mergeValues : List Int) (I : Int)
    (hv : values.length = ts.length) (hm : mergeValues.length = ts.length) :
    (∃ out, DeduplicateSamples lt ts values I = some out ∧
      (needsDedup ts I = true ↔ out.1.length < ts.length) ∧
      (needsDedup ts I = false → out = (ts, values))) ∧
    (∃ out, deduplicateSamplesDuringMerge ts mergeValues I = some out ∧
      (needsDedup ts I = true ↔ out.1.length < ts.length) ∧
      (needsDedup ts I = false → out = (ts, mergeValues))) :=
  ⟨dedupScan_shorter_iff lt true ts values I hv,
   dedupScan_shorter_iff _ false ts mergeValues I hm⟩

theorem needsDedup_iff_output_shorter_witness :
    ([5, 9, 1, 4] : List ℚ).length = ([1000, 1000, 1500, 2500] : List Int).length ∧
    ([5, 9, 1, 4] : List Int).length = ([1000, 1000, 1500, 2500] : List Int).length ∧
    (∃ out, DeduplicateSamples (ltOf : ℚ → ℚ → Bool) [1000, 1000, 1500, 2500] [5, 9, 1, 4] 1000 = some out ∧
      (needsDedup [1000, 1000, 1500, 2500] 1000 = true ↔
        out.1.length < ([1000, 1000, 1500, 2500] : List Int).length) ∧
      (needsDedup [1000, 1000, 1500, 2500] 1000 = false →
        out = ([1000, 1000, 1500, 2500], [5, 9, 1, 4]))) ∧
    (∃ out, deduplicateSamplesDuringMerge [1000, 1000, 1500, 2500] [5, 9, 1, 4] 1000 = some out ∧
      (needsDedup [1000, 1000, 1500, 2500] 1000 = true ↔
        out.1.length < ([1000, 1000, 1500, 2500] : List Int).length) ∧
      (needsDedup [1000, 1000, 1500, 2500] 1000 = false →
        out = ([1000, 1000, 1500, 2500], [5, 9, 1, 4]))) :=
  ⟨by decide, by decide,
   needsDedup_iff_output_shorter ltOf [1000, 1000, 1500, 2500] [5, 9, 1, 4] [5, 9, 1, 4] 1000
     (by decide) (by decide)⟩

/-- C7 (as stated, refuted). For timestamps `[1000, 1500, 2700, 2900, 3600]`, values
`[1, 2, 3, 4, 5]` and interval `1000`, `DeduplicateSamples` does not return
timestamps `[1500, 2900, 3600]` with values `[2, 4, 5]`. -/
theorem scenario1_not_as_stated :
    DeduplicateSamples (ltOf : ℚ → ℚ → Bool) [1000, 1500, 2700, 2900, 3600] [1, 2, 3, 4, 5] 1000
      ≠ some ([1500, 2900, 3600], [2, 4, 5]) := by
  decide

/-- C7 (amended). For timestamps `[1000, 1500, 2700, 2900, 3600]`, values
`[1, 2, 3, 4, 5]` and interval `1000`, `DeduplicateSamples` returns timestamps
`[1000, 1500, 2900, 3600]` and values `[1, 2, 4, 5]`: the sample at `1000` lies
on a grid line and closes the bucket that ends there. -/
theorem scenario1_output :
    DeduplicateSamples (ltOf : ℚ → ℚ → Bool) [1000, 1500, 2700, 2900, 3600] [1, 2, 3, 4, 5] 1000
      = some ([1000, 1500, 2900, 3600], [1, 2, 4, 5]) := by
  decide

/-- C8. If the interval is `≤ 0` or the input has at most one sample, both
`DeduplicateSamples` and `deduplicateSamplesDuringMerge` return exactly the
input timestamps and values. -/
theorem identity_when_disabled_or_trivial {α : Type} [Zero α] (lt : α → α → Bool)
    (ts : List Int) (values : List α) (mergeValues : List Int) (I : Int)
    (h : I ≤ 0 ∨ ts.length ≤ 1) :
    DeduplicateSamples lt ts values I = some (ts, values) ∧
    deduplicateSamplesDuringMerge ts mergeValues I = some (ts, mergeValues) :=
  ⟨dedupScan_fast lt true ts values I (needsDedup_false_of_trivial ts I h),
   dedupScan_fast _ false ts mergeValues I (needsDedup_false_of_trivial ts I h)⟩

theorem identity_when_disabled_or_trivial_witness :
    ((0 : Int) ≤ 0 ∨ ([1000, 1000, 1500] : List Int).length ≤ 1) ∧
    DeduplicateSamples (ltOf : ℚ → ℚ → Bool) [1000, 1000, 1500] [5, 9, 1] 0
      = some ([1000, 1000, 1500], [5, 9, 1]) ∧
    deduplicateSamplesDuringMerge [1000, 1000, 1500] [5, 9, 1] 0
      = some ([1000, 1000, 1500], [5, 9, 1]) :=
  ⟨by decide,
   identity_when_disabled_or_trivial ltOf [1000, 1000, 1500] [5, 9, 1] [5, 9, 1] 0
     (by decide)⟩

/-- C9. On a timestamp sequence of length `N` with a parallel value sequence,
for every interval, `DeduplicateSamples` returns timestamp and value sequences
of one common length `L`, with `L ≤ N`, and `L ≥ 1` whenever `N ≥ 1`. -/
theorem DeduplicateSamples_length_bound {α : Type} [Zero α] (lt : α → α → Bool)
    (ts : List Int) (values : List α) (I : Int) (hv : values.length = ts.length) :
    ∃ out, DeduplicateSamples lt ts values I = some out ∧
      out.2.length = out.1.length ∧ out.1.length ≤ ts.length ∧
      (1 ≤ ts.length → 1 ≤ out.1.length) := by
  refine ⟨_, dedupScan_eq_pure lt true ts values I hv,
    pureDedup_snd_length lt true ts values I hv, ?_, ?_⟩
  · rw [pureDedup_fst lt true ts values I hv]
    exact dedupTs_length_le ts I
  · intro h1
    rw [pureDedup_fst lt true ts values I hv]
    have hne : ts ≠ [] := by
      intro h0
      simp [h0] at h1
    exact List.length_pos.2 (dedupTs_ne_nil ts I hne)

theorem DeduplicateSamples_length_bound_witness :
    ([5, 9, 1, 4] : List ℚ).length = ([1000, 1000, 1500, 2500] : List Int).length ∧
    ∃ out, DeduplicateSamples (ltOf : ℚ → ℚ → Bool) [1000, 1000, 1500, 2500] [5, 9, 1, 4] 1000 = some out ∧
      out.2.length = out.1.length ∧
      out.1.length ≤ ([1000, 1000, 1500, 2500] : List Int).length ∧
      (1 ≤ ([1000, 1000, 1500, 2500] : List Int).length → 1 ≤ out.1.length) :=
  ⟨by decide,
   DeduplicateSamples_length_bound ltOf [1000, 1000, 1500, 2500] [5, 9, 1, 4] 1000 (by decide)⟩

/-- C6 (as stated, refuted). With timestamps `[9223372036854775001,
9223372036854775002]` and interval `1000` the `int64` sum `ts + dedupInterval`
wraps around, `needsDedup` finds nothing to do and `DeduplicateSamples` returns
both timestamps, although they lie in one grid bucket and no grid line
separates them. -/
theorem DeduplicateSamples_same_bucket_on_wrap :
    DeduplicateSamples (ltOf : ℚ → ℚ → Bool) [9223372036854775001, 9223372036854775002] [1, 2] 1000
      = some ([9223372036854775001, 9223372036854775002], [1, 2]) ∧
    InBucket 1000 9223372036854776 9223372036854775001 ∧
    InBucket 1000 9223372036854776 9223372036854775002 ∧
    ¬ GridBetween 1000 9223372036854775001 9223372036854775002 := by
  refine ⟨by decide, by decide, by decide, ?_⟩
  rintro ⟨k, h1, h2⟩
  omega

/-- C6 (amended). For every interval `I > 0` and every non-decreasing sequence
of `int64` timestamps `t` with `t + I - 1 ≤ MaxInt64` (no boundary computation
wraps around; negative timestamps allowed), with parallel values,
`DeduplicateSamples` returns, and between every two consecutive returned
timestamps `a`, `b` there is a grid line `a ≤ k * I < b`; hence no two returned
timestamps lie in one bucket `(k - 1) * I < t ≤ k * I`. -/
theorem DeduplicateSamples_one_per_bucket {α : Type} [Zero α] (lt : α → α → Bool)
    (ts : List Int) (values : List α) (I : Int) (hI : 0 < I)
    (hs : ts.Sorted (· ≤ ·)) (hno : ∀ t ∈ ts, NoOverflow I t)
    (hv : values.length = ts.length) :
    ∃ out, DeduplicateSamples lt ts values I = some out ∧
      out.1.Chain' (GridBetween I) ∧
      out.1.Pairwise (fun a b => ∀ k : Int, ¬ (InBucket I k a ∧ InBucket I k b)) := by
  refine ⟨_, dedupScan_eq_pure lt true ts values I hv, ?_, ?_⟩
  · rw [pureDedup_fst lt true ts values I hv]
    exact (dedupTs_pairwise_grid ts I hI hs hno).chain'
  · rw [pureDedup_fst lt true ts values I hv]
    exact (dedupTs_pairwise_grid ts I hI hs hno).imp (fun h k => h.not_inBucket hI k)

theorem DeduplicateSamples_one_per_bucket_witness :
    (0 : Int) < 10 ∧ ([-25, -15, -5, 3, 4, 20] : List Int).Sorted (· ≤ ·) ∧
    (∀ t ∈ ([-25, -15, -5, 3, 4, 20] : List Int), NoOverflow 10 t) ∧
    ([1, 2, 3, 4, 5, 6] : List ℚ).length = ([-25, -15, -5, 3, 4, 20] : List Int).length ∧
    ∃ out, DeduplicateSamples (ltOf : ℚ → ℚ → Bool) [-25, -15, -5, 3, 4, 20] [1, 2, 3, 4, 5, 6] 10
        = some out ∧
      out.1.Chain' (GridBetween 10) ∧
      out.1.Pairwise (fun a b => ∀ k : Int, ¬ (InBucket 10 k a ∧ InBucket 10 k b)) :=
  ⟨by decide, by decide, by decide, by decide,
   DeduplicateSamples_one_per_bucket ltOf [-25, -15, -5, 3, 4, 20] [1, 2, 3, 4, 5, 6] 10
     (by decide) (by decide) (by decide) (by decide)⟩

/-- C10 (as stated, refuted). With timestamps `[MaxInt64, MaxInt64]` and interval
`1000` the `int64` sum `ts + dedupInterval` wraps around, `needsDedup` is false
and `DeduplicateSamples` returns both timestamps: the result is not strictly
ascending. -/
theorem DeduplicateSamples_not_ascending_on_wrap :
    DeduplicateSamples (ltOf : ℚ → ℚ → Bool) [9223372036854775807, 9223372036854775807] [7, 3] 1000
      = some ([9223372036854775807, 9223372036854775807], [7, 3]) ∧
    ¬ ([9223372036854775807, 9223372036854775807] : List Int).Sorted (· < ·) := by
  decide

/-- C10 (amended). For every interval `I > 0` and every non-decreasing sequence
of `int64` timestamps `t` with `t + I - 1 ≤ MaxInt64` (no boundary computation
wraps around), with parallel values, `DeduplicateSamples` returns, and the
returned timestamps are strictly ascending. -/
theorem DeduplicateSamples_strictly_ascending {α : Type} [Zero α] (lt : α → α → Bool)
    (ts : List Int) (values : List α) (I : Int) (hI : 0 < I)
    (hs : ts.Sorted (· ≤ ·)) (hno : ∀ t ∈ ts, NoOverflow I t)
    (hv : values.length = ts.length) :
    ∃ out, DeduplicateSamples lt ts values I = some out ∧ out.1.Sorted (· < ·) := by
  refine ⟨_, dedupScan_eq_pure lt true ts values I hv, ?_⟩
  rw [pureDedup_fst lt true ts values I hv]
  exact (dedupTs_pairwise_grid ts I hI hs hno).imp (fun h => h.lt)

theorem DeduplicateSamples_strictly_ascending_witness :
    (0 : Int) < 10 ∧ ([-25, -15, -5, 3, 4, 4, 20] : List Int).Sorted (· ≤ ·) ∧
    (∀ t ∈ ([-25, -15, -5, 3, 4, 4, 20] : List Int), NoOverflow 10 t) ∧
    ([1, 2, 3, 4, 5, 6, 7] : List ℚ).length = ([-25, -15, -5, 3, 4, 4, 20] : List Int).length ∧
    ∃ out, DeduplicateSamples (ltOf : ℚ → ℚ → Bool) [-25, -15, -5, 3, 4, 4, 20]
        [1, 2, 3, 4, 5, 6, 7] 10 = some out ∧ out.1.Sorted (· < ·) :=
  ⟨by decide, by decide, by decide, by decide,
   DeduplicateSamples_strictly_ascending ltOf [-25, -15, -5, 3, 4, 4, 20] [1, 2, 3, 4, 5, 6, 7] 10
     (by decide) (by decide) (by decide) (by decide)⟩

/-- C2 (as stated, refuted). With timestamps `[MaxInt64, MaxInt64]`, values
`[7, 3]` and interval `1000` the `int64` sum `ts + dedupInterval` wraps around,
`needsDedup` is false and `DeduplicateSamples` returns the input: the returned
pair `(MaxInt64, 3)` does not carry the maximum `7` of the values at its
timestamp. -/
theorem DeduplicateSamples_value_not_max_on_wrap :
    DeduplicateSamples (ltOf : ℚ → ℚ → Bool) [9223372036854775807, 9223372036854775807] [7, 3] 1000
      = some ([9223372036854775807, 9223372036854775807], [7, 3]) ∧
    ¬ IsMaxAt (([9223372036854775807, 9223372036854775807] : List Int).zip ([7, 3] : List ℚ)) 9223372036854775807 3 := by
  refine ⟨by decide, ?_⟩
  intro h
  exact absurd (h.2 (9223372036854775807, 7) (by decide) rfl) (by decide)

/-- C2 (amended). For every interval `I > 0`, every non-decreasing sequence of
`int64` timestamps `t` with `t + I - 1 ≤ MaxInt64` (no boundary computation
wraps around) and every parallel sequence of totally ordered values,
`DeduplicateSamples` returns, and each returned pair `(t, v)` has `v` equal to
the maximum of the values of the input samples whose timestamp is `t`. -/
theorem DeduplicateSamples_value_is_max {α : Type} [LinearOrder α] [Zero α]
    (ts : List Int) (values : List α) (I : Int) (hI : 0 < I)
    (hs : ts.Sorted (· ≤ ·)) (hno : ∀ t ∈ ts, NoOverflow I t)
    (hv : values.length = ts.length) :
    ∃ out, DeduplicateSamples ltOf ts values I = some out ∧
      ∀ p ∈ out.1.zip out.2, IsMaxAt (ts.zip values) p.1 p.2 := by
  refine ⟨_, dedupScan_eq_pure ltOf true ts values I hv, ?_⟩
  match ts, values, hv, hs, hno with
  | [], [], _, _, _ => simp [pureDedup, needsDedup]
  | t0 :: T, v0 :: V, hv, hs, hno =>
    have hlen : V.length = T.length := by simpa using hv
    rw [pureDedup_of_pos ltOf t0 T v0 V I hI hlen hno]
    simp only [zip_map_fst_map_snd, List.zip_cons_cons]
    refine emitLoop_isMaxAt I hI (T.zip V) _ t0 v0
      (alignTsNext_ge t0 I hI (hno t0 (List.mem_cons_self _ _))) ?_ ?_
    · rw [map_fst_zip_of_length T V hlen]
      exact hs
    · rintro ⟨a, b⟩ hq
      exact hno a (List.mem_cons_of_mem _ (List.of_mem_zip hq).1)

theorem DeduplicateSamples_value_is_max_witness :
    (0 : Int) < 1000 ∧ ([1000, 1000, 1000, 1500, 2700, 2700] : List Int).Sorted (· ≤ ·) ∧
    (∀ t ∈ ([1000, 1000, 1000, 1500, 2700, 2700] : List Int), NoOverflow 1000 t) ∧
    ([5, 9, 1, 2, 3, 1] : List ℚ).length =
      ([1000, 1000, 1000, 1500, 2700, 2700] : List Int).length ∧
    ∃ out, DeduplicateSamples ltOf [1000, 1000, 1000, 1500, 2700, 2700]
        ([5, 9, 1, 2, 3, 1] : List ℚ) 1000 = some out ∧
      ∀ p ∈ out.1.zip out.2,
        IsMaxAt (([1000, 1000, 1000, 1500, 2700, 2700] : List Int).zip
          ([5, 9, 1, 2, 3, 1] : List ℚ)) p.1 p.2 :=
  ⟨by decide, by decide, by decide, by decide,
   DeduplicateSamples_value_is_max [1000, 1000, 1000, 1500, 2700, 2700] [5, 9, 1, 2, 3, 1] 1000
     (by decide) (by decide) (by decide) (by decide)⟩

/-- C1 (as stated, refuted). With the non-negative timestamps
`[9223372036854775001, 9223372036854775002]` and interval `1000` the `int64`
sum `ts + dedupInterval` wraps around and `DeduplicateSamples` returns both
timestamps: two returned timestamps for one bucket, the first of which is not
the greatest input timestamp of its bucket. -/
theorem DeduplicateSamples_not_last_per_bucket_on_wrap :
    DeduplicateSamples (ltOf : ℚ → ℚ → Bool) [9223372036854775001, 9223372036854775002] [1, 2] 1000
      = some ([9223372036854775001, 9223372036854775002], [1, 2]) ∧
    InBucket 1000 9223372036854776 9223372036854775001 ∧
    InBucket 1000 9223372036854776 9223372036854775002 ∧
    ¬ IsBucketLast 1000 [9223372036854775001, 9223372036854775002] 9223372036854775001 := by
  refine ⟨by decide, by decide, by decide, ?_⟩
  rintro ⟨k, hk, _, hmax⟩
  have hk' : k = 9223372036854776 := by
    unfold InBucket at hk
    omega
  subst hk'
  exact absurd (hmax 9223372036854775002 (by decide) (by decide)) (by decide)

/-- C1 (amended). For every interval `I > 0` and every non-decreasing sequence of
non-negative timestamps `t` with `t + I - 1 ≤ MaxInt64` (no boundary
computation wraps around), with a parallel value sequence,
`DeduplicateSamples` returns, and the returned timestamps are strictly
ascending and are exactly the greatest input timestamps of the grid buckets
`(k - 1) * I < t ≤ k * I`: every bucket holding an input timestamp has exactly
one returned timestamp, and a bucket holding none has none. -/
theorem DeduplicateSamples_last_per_bucket {α : Type} [Zero α] (lt : α → α → Bool)
    (ts : List Int) (values : List α) (I : Int) (hI : 0 < I)
    (hs : ts.Sorted (· ≤ ·)) (hnn : ∀ t ∈ ts, 0 ≤ t)
    (hub : ∀ t ∈ ts, t + I - 1 ≤ MaxInt64) (hv : values.length = ts.length) :
    ∃ out, DeduplicateSamples lt ts values I = some out ∧
      out.1.Sorted (· < ·) ∧
      (∀ x, x ∈ out.1 ↔ IsBucketLast I ts x) ∧
      (∀ k : Int, (∃ u ∈ ts, InBucket I k u) → ∃! x, x ∈ out.1 ∧ InBucket I k x) ∧
      (∀ k : Int, (¬ ∃ u ∈ ts, InBucket I k u) → ∀ x ∈ out.1, ¬ InBucket I k x) := by
  have hgt : ∀ u ∈ ts, -I < u := fun u hu => by have := hnn u hu; omega
  have hno : ∀ u ∈ ts, NoOverflow I u := fun u hu =>
    ⟨le_trans (by decide) (hnn u hu), hub u hu⟩
  have hiff := dedupTs_mem_iff ts I hI hs hgt hno
  refine ⟨_, dedupScan_eq_pure lt true ts values I hv, ?_, ?_, ?_, ?_⟩
  · rw [pureDedup_fst lt true ts values I hv]
    exact (dedupTs_pairwise_grid ts I hI hs hno).imp (fun h => h.lt)
  · rw [pureDedup_fst lt true ts values I hv]
    exact hiff
  · rw [pureDedup_fst lt true ts values I hv]
    intro k hk
    obtain ⟨m, hm, hkm, hmax⟩ := exists_last_in_bucket I k ts hk
    refine ⟨m, ⟨(hiff m).2 ⟨k, hkm, hm, hmax⟩, hkm⟩, ?_⟩
    rintro y ⟨hy, hky⟩
    obtain ⟨j, hjy, hyts, hymax⟩ := (hiff y).1 hy
    have hjk : j = k := hjy.index_unique hI hky
    subst hjk
    exact le_antisymm (hmax y hyts hky) (hymax m hm hkm)
  · rw [pureDedup_fst lt true ts values I hv]
    intro k hk x hx hkx
    exact hk ⟨x, dedupTs_subset ts I x hx, hkx⟩

theorem DeduplicateSamples_last_per_bucket_witness :
    (0 : Int) < 1000 ∧ ([0, 1000, 1500, 2700, 2900, 2900, 5600] : List Int).Sorted (· ≤ ·) ∧
    (∀ t ∈ ([0, 1000, 1500, 2700, 2900, 2900, 5600] : List Int), 0 ≤ t) ∧
    (∀ t ∈ ([0, 1000, 1500, 2700, 2900, 2900, 5600] : List Int), t + 1000 - 1 ≤ MaxInt64) ∧
    ([1, 2, 3, 4, 5, 6, 7] : List ℚ).length =
      ([0, 1000, 1500, 2700, 2900, 2900, 5600] : List Int).length ∧
    ∃ out, DeduplicateSamples (ltOf : ℚ → ℚ → Bool) [0, 1000, 1500, 2700, 2900, 2900, 5600]
        [1, 2, 3, 4, 5, 6, 7] 1000 = some out ∧
      out.1.Sorted (· < ·) ∧
      (∀ x, x ∈ out.1 ↔ IsBucketLast 1000 [0, 1000, 1500, 2700, 2900, 2900, 5600] x) ∧
      (∀ k : Int, (∃ u ∈ ([0, 1000, 1500, 2700, 2900, 2900, 5600] : List Int),
          InBucket 1000 k u) → ∃! x, x ∈ out.1 ∧ InBucket 1000 k x) ∧
      (∀ k : Int, (¬ ∃ u ∈ ([0, 1000, 1500, 2700, 2900, 2900, 5600] : List Int),
          InBucket 1000 k u) → ∀ x ∈ out.1, ¬ InBucket 1000 k x) :=
  ⟨by decide, by decide, by decide, by decide, by decide,
   DeduplicateSamples_last_per_bucket ltOf [0, 1000, 1500, 2700, 2900, 2900, 5600]
     [1, 2, 3, 4, 5, 6, 7] 1000 (by decide) (by decide) (by decide) (by decide) (by decide)⟩

/-- C4 (as stated, refuted). With timestamps `[-25, -15, -5]` and interval `10`,
`DeduplicateSamples` returns timestamps `[-15, -5]`, and applied to that result
it returns timestamps `[-5]`: the second application changes the result. -/
theorem DeduplicateSamples_not_idempotent_negative :
    DeduplicateSamples (ltOf : ℚ → ℚ → Bool) [-25, -15, -5] [1, 2, 3] 10
      = some ([-15, -5], [2, 3]) ∧
    DeduplicateSamples (ltOf : ℚ → ℚ → Bool) [-15, -5] [2, 3] 10 = some ([-5], [3]) ∧
    ¬ ∃ out, DeduplicateSamples (ltOf : ℚ → ℚ → Bool) [-25, -15, -5] [1, 2, 3] 10 = some out ∧
      DeduplicateSamples (ltOf : ℚ → ℚ → Bool) out.1 out.2 10 = some out := by
  refine ⟨by decide, by decide, ?_⟩
  rintro ⟨out, h1, h2⟩
  have e1 : DeduplicateSamples (ltOf : ℚ → ℚ → Bool) [-25, -15, -5] [1, 2, 3] 10
      = some ([-15, -5], [2, 3]) := by decide
  rw [e1] at h1
  cases h1
  revert h2
  decide

/-- C4 (amended). For every interval `I > 0` (an `int64`, so `I ≤ MaxInt64`),
every non-decreasing timestamp sequence whose timestamps are all greater than
`-I` (in particular every sequence of non-negative timestamps) and every
parallel value sequence, `DeduplicateSamples` returns, and applied with the
same interval to its own result it returns that result unchanged. This holds
with `int64` wrap-around, timestamps next to `MaxInt64` included. -/
theorem DeduplicateSamples_idempotent {α : Type} [Zero α] (lt : α → α → Bool)
    (ts : List Int) (values : List α) (I : Int) (hI : 0 < I) (hI64 : I ≤ MaxInt64)
    (hs : ts.Sorted (· ≤ ·)) (hgt : ∀ t ∈ ts, -I < t) (hv : values.length = ts.length) :
    ∃ out, DeduplicateSamples lt ts values I = some out ∧
      DeduplicateSamples lt out.1 out.2 I = some out := by
  refine ⟨_, dedupScan_eq_pure lt true ts values I hv, ?_⟩
  apply dedupScan_fast
  rw [pureDedup_fst lt true ts values I hv]
  exact needsDedup_dedupTs ts I hI hI64 hs hgt

theorem DeduplicateSamples_idempotent_witness :
    (0 : Int) < 1000 ∧ (1000 : Int) ≤ MaxInt64 ∧
    ([-500, 0, 1000, 1500, 2700, 2900, 2900, 9223372036854775001, 9223372036854775002]
      : List Int).Sorted (· ≤ ·) ∧
    (∀ t ∈ ([-500, 0, 1000, 1500, 2700, 2900, 2900, 9223372036854775001, 9223372036854775002]
      : List Int), -1000 < t) ∧
    ([1, 2, 3, 4, 5, 6, 7, 8, 9] : List ℚ).length =
      ([-500, 0, 1000, 1500, 2700, 2900, 2900, 9223372036854775001, 9223372036854775002]
        : List Int).length ∧
    ∃ out, DeduplicateSamples (ltOf : ℚ → ℚ → Bool)
        [-500, 0, 1000, 1500, 2700, 2900, 2900, 9223372036854775001, 9223372036854775002]
        [1, 2, 3, 4, 5, 6, 7, 8, 9] 1000 = some out ∧
      DeduplicateSamples (ltOf : ℚ → ℚ → Bool) out.1 out.2 1000 = some out :=
  ⟨by decide, by decide, by decide, by decide, by decide,
   DeduplicateSamples_idempotent ltOf
     [-500, 0, 1000, 1500, 2700, 2900, 2900, 9223372036854775001, 9223372036854775002]
     [1, 2, 3, 4, 5, 6, 7, 8, 9] 1000 (by decide) (by decide) (by decide) (by decide) (by decide)⟩

/-- C11. For every non-empty input (with parallel values) and every interval,
`DeduplicateSamples` returns, and the last returned timestamp is the last
input timestamp. -/
theorem DeduplicateSamples_last_timestamp {α : Type} [Zero α] (lt : α → α → Bool)
    (ts : List Int) (values : List α) (I : Int) (hne : ts ≠ [])
    (hv : values.length = ts.length) :
    ∃ out, DeduplicateSamples lt ts values I = some out ∧
      out.1.getLast? = some (ts.getLast hne) := by
  refine ⟨_, dedupScan_eq_pure lt true ts values I hv, ?_⟩
  rw [pureDedup_fst lt true ts values I hv, dedupTs_getLast?]
  exact List.getLast?_eq_getLast ts hne

theorem DeduplicateSamples_last_timestamp_witness :
    ([1000, 1000, 1500, 2500, 2600] : List Int) ≠ [] ∧
    ([5, 9, 1, 4, 2] : List ℚ).length = ([1000, 1000, 1500, 2500, 2600] : List Int).length ∧
    ∃ out, DeduplicateSamples (ltOf : ℚ → ℚ → Bool) [1000, 1000, 1500, 2500, 2600]
        [5, 9, 1, 4, 2] 1000 = some out ∧
      out.1.getLast? = some (([1000, 1000, 1500, 2500, 2600] : List Int).getLast (by decide)) :=
  ⟨by decide, by decide,
   DeduplicateSamples_last_timestamp ltOf [1000, 1000, 1500, 2500, 2600] [5, 9, 1, 4, 2] 1000
     (by decide) (by decide)⟩

/-- C13. For every timestamp sequence, every interval and every pair of parallel
value sequences, `DeduplicateSamples` and `deduplicateSamplesDuringMerge` both
return, with the same timestamps; these are `dedupTs`, a function of the input
timestamps and the interval alone. -/
theorem same_timestamps_both_entry_points {α : Type} [Zero α] (lt : α → α → Bool)
    (ts : List Int) (values : List α) (mergeValues : List Int) (I : Int)
    (hv : values.length = ts.length) (hm : mergeValues.length = ts.length) :
    ∃ out outMerge, DeduplicateSamples lt ts values I = some out ∧
      deduplicateSamplesDuringMerge ts mergeValues I = some outMerge ∧
      out.1 = outMerge.1 ∧ out.1 = dedupTs ts I :=
  ⟨_, _, dedupScan_eq_pure lt true ts values I hv, dedupScan_eq_pure _ false ts mergeValues I hm,
    (pureDedup_fst lt true ts values I hv).trans (pureDedup_fst _ false ts mergeValues I hm).symm,
    pureDedup_fst lt true ts values I hv⟩

theorem same_timestamps_both_entry_points_witness :
    ([5, 9, 1, 4, 2] : List ℚ).length = ([0, 0, 1500, 2500, 2600] : List Int).length ∧
    ([7, 3, 8, 1, 1] : List Int).length = ([0, 0, 1500, 2500, 2600] : List Int).length ∧
    ∃ out outMerge, DeduplicateSamples (ltOf : ℚ → ℚ → Bool) [0, 0, 1500, 2500, 2600]
        [5, 9, 1, 4, 2] 1000 = some out ∧
      deduplicateSamplesDuringMerge [0, 0, 1500, 2500, 2600] [7, 3, 8, 1, 1] 1000
        = some outMerge ∧
      out.1 = outMerge.1 ∧ out.1 = dedupTs [0, 0, 1500, 2500, 2600] 1000 :=
  ⟨by decide, by decide,
   same_timestamps_both_entry_points ltOf [0, 0, 1500, 2500, 2600] [5, 9, 1, 4, 2]
     [7, 3, 8, 1, 1] 1000 (by decide) (by decide)⟩

/-- C17. For every interval `I > 0` (an `int64`, so `I ≤ MaxInt64`) and every
non-decreasing sequence of non-negative timestamps (with parallel values),
`DeduplicateSamples` returns, and `needsDedup` is false on the returned
timestamps with the same interval. This holds with `int64` wrap-around,
timestamps next to `MaxInt64` included. -/
theorem needsDedup_false_on_output {α : Type} [Zero α] (lt : α → α → Bool)
    (ts : List Int) (values : List α) (I : Int) (hI : 0 < I) (hI64 : I ≤ MaxInt64)
    (hs : ts.Sorted (· ≤ ·)) (hnn : ∀ t ∈ ts, 0 ≤ t) (hv : values.length = ts.length) :
    ∃ out, DeduplicateSamples lt ts values I = some out ∧ needsDedup out.1 I = false := by
  refine ⟨_, dedupScan_eq_pure lt true ts values I hv, ?_⟩
  rw [pureDedup_fst lt true ts values I hv]
  exact needsDedup_dedupTs ts I hI hI64 hs (fun u hu => by have := hnn u hu; omega)

theorem needsDedup_false_on_output_witness :
    (0 : Int) < 1000 ∧ (1000 : Int) ≤ MaxInt64 ∧
    ([0, 1000, 1500, 2700, 2900, 2900, 5600, 9223372036854775807, 9223372036854775807] : List Int).Sorted (· ≤ ·) ∧
    (∀ t ∈ ([0, 1000, 1500, 2700, 2900, 2900, 5600, 9223372036854775807, 9223372036854775807] : List Int), 0 ≤ t) ∧
    ([1, 2, 3, 4, 5, 6, 7, 8, 9] : List ℚ).length =
      ([0, 1000, 1500, 2700, 2900, 2900, 5600, 9223372036854775807, 9223372036854775807] : List Int).length ∧
    ∃ out, DeduplicateSamples (ltOf : ℚ → ℚ → Bool)
        [0, 1000, 1500, 2700, 2900, 2900, 5600, 9223372036854775807, 9223372036854775807]
        [1, 2, 3, 4, 5, 6, 7, 8, 9] 1000 = some out ∧ needsDedup out.1 1000 = false :=
  ⟨by decide, by decide, by decide, by decide, by decide,
   needsDedup_false_on_output ltOf [0, 1000, 1500, 2700, 2900, 2900, 5600, 9223372036854775807, 9223372036854775807]
     [1, 2, 3, 4, 5, 6, 7, 8, 9] 1000 (by decide) (by decide) (by decide) (by decide) (by decide)⟩

/-- C14 (as stated, refuted). For `t = -15` and `I = 10` the code computes the
boundary `0`, while `-10` is a smaller multiple of `10` that is `≥ -15`: Go's `%`
truncates toward zero, so a negative `t + I - 1` is rounded up, not down. For
`t = MaxInt64` and `I = 1000` the `int64` sum `t + I` wraps around and the code
computes `-9223372036854774000`, which is below `t`. -/
theorem alignTsNext_not_ceil :
    alignTsNext (-15) 10 = 0 ∧ ¬ IsCeilToGrid 10 (-15) (alignTsNext (-15) 10) ∧
    alignTsNext 9223372036854775807 1000 = -9223372036854774000 ∧
    ¬ IsCeilToGrid 1000 9223372036854775807 (alignTsNext 9223372036854775807 1000) := by
  refine ⟨by decide, ?_, by decide, ?_⟩
  · intro h
    exact absurd (h.2.2 (-10) (by decide) (by decide)) (by decide)
  · intro h
    exact absurd h.2.1 (by decide)

/-- C14 (amended). For every interval `I > 0` and every `int64` timestamp `t`
with `-I < t` (in particular every non-negative one) and `t + I - 1 ≤ MaxInt64`
(the sum does not wrap around), the boundary computed as
`b = t + I - 1; b -= b % I` is the smallest integer `≥ t` that is congruent to
`0` modulo `I`. -/
theorem alignTsNext_isCeilToGrid (t I : Int) (hI : 0 < I) (ht : -I < t)
    (hno : NoOverflow I t) : IsCeilToGrid I t (alignTsNext t I) := by
  refine ⟨alignTsNext_dvd t I hI, alignTsNext_ge t I hI hno, ?_⟩
  intro m hm htm
  obtain ⟨j, hj⟩ := hm
  obtain ⟨k, hk⟩ := alignTsNext_dvd t I hI
  have hlt := alignTsNext_sub_lt t I hI ht
  have hkj : k ≤ j := by
    by_contra hcon
    have h1 : I * j ≤ I * (k - 1) := Int.mul_le_mul_of_nonneg_left (by omega) (le_of_lt hI)
    have h2 : I * (k - 1) = alignTsNext t I - I := by rw [hk]; ring
    omega
  rw [hk, hj]
  exact Int.mul_le_mul_of_nonneg_left hkj (le_of_lt hI)

theorem alignTsNext_isCeilToGrid_witness :
    (0 : Int) < 1000 ∧ (-1000 : Int) < -250 ∧ NoOverflow 1000 (-250) ∧
    IsCeilToGrid 1000 (-250) (alignTsNext (-250) 1000) :=
  ⟨by decide, by decide, by decide,
   alignTsNext_isCeilToGrid (-250) 1000 (by decide) (by decide) (by decide)⟩

/-- C12 (as stated, refuted). With timestamps `[1000, 1000, 1000]`, the `float64`
values `[5, NaN, 1]` and interval `1000`, `DeduplicateSamples` returns the one
pair `(1000, 1)`, though the input has the greater value `5` at that timestamp:
`<` is false on NaN, which drops the carried `5`. With the non-negative
timestamps `[MaxInt64, MaxInt64]`, both in bucket `9223372036854776`, and
interval `1000` the `int64` sum `ts + dedupInterval` wraps around and
`DeduplicateSamples` returns two pairs. -/
theorem single_bucket_two_failures :
    DeduplicateSamples Float64.lt [1000, 1000, 1000]
        [Float64.num 5, Float64.nan, Float64.num 1] 1000 = some ([1000], [Float64.num 1]) ∧
    Float64.lt (Float64.num 1) (Float64.num 5) = true ∧
    (∀ t ∈ ([1000, 1000, 1000] : List Int), 0 ≤ t ∧ InBucket 1000 1 t) ∧
    (∀ t ∈ ([9223372036854775807, 9223372036854775807] : List Int), 0 ≤ t ∧ InBucket 1000 9223372036854776 t) ∧
    DeduplicateSamples (ltOf : ℚ → ℚ → Bool) [9223372036854775807, 9223372036854775807] [7, 3] 1000
      = some ([9223372036854775807, 9223372036854775807], [7, 3]) := by
  decide

/-- C12 (amended). For every interval `I > 0` and every non-empty (in particular
every at least two element) non-decreasing sequence of non-negative timestamps
`t` with `t + I - 1 ≤ MaxInt64` (no boundary computation wraps around) that all
lie in one grid bucket `(k - 1) * I < t ≤ k * I`, with parallel totally ordered
values (no NaN), `DeduplicateSamples` returns exactly one pair: its timestamp
is the last input timestamp and its value is the maximum of the values of the
input samples that have that timestamp. -/
theorem DeduplicateSamples_single_bucket {α : Type} [LinearOrder α] [Zero α]
    (ts : List Int) (values : List α) (I k : Int) (hI : 0 < I)
    (hs : ts.Sorted (· ≤ ·)) (hnn : ∀ t ∈ ts, 0 ≤ t)
    (hub : ∀ t ∈ ts, t + I - 1 ≤ MaxInt64) (hne : ts ≠ [])
    (hk : ∀ t ∈ ts, InBucket I k t) (hv : values.length = ts.length) :
    ∃ v, DeduplicateSamples ltOf ts values I = some ([ts.getLast hne], [v]) ∧
      IsMaxAt (ts.zip values) (ts.getLast hne) v := by
  have hD := dedupScan_eq_pure ltOf true ts values I hv
  have hlast := dedupTs_getLast? ts I
  rw [← pureDedup_fst ltOf true ts values I hv, List.getLast?_eq_getLast ts hne] at hlast
  have hno : ∀ u ∈ ts, NoOverflow I u := fun u hu =>
    ⟨le_trans (by decide) (hnn u hu), hub u hu⟩
  match ts, values, hv, hs, hnn, hne, hk, hD, hlast, hno with
  | t0 :: T, v0 :: V, hv, hs, hnn, hne, hk, hD, hlast, hno =>
    have hlen : V.length = T.length := by simpa using hv
    have ht0 : -I < t0 := by have := hnn t0 (List.mem_cons_self _ _); omega
    have hno0 : NoOverflow I t0 := hno t0 (List.mem_cons_self _ _)
    have hnoz : ∀ q ∈ T.zip V, NoOverflow I q.1 := by
      rintro ⟨a, b⟩ hq
      exact hno a (List.mem_cons_of_mem _ (List.of_mem_zip hq).1)
    have hall : ∀ p ∈ T.zip V, p.1 ≤ alignTsNext t0 I := by
      rintro ⟨a, b⟩ hp
      have hp1 : a ∈ T := (List.of_mem_zip hp).1
      exact le_alignTsNext_of_inBucket I k t0 a hI ht0 hno0 (hk t0 (List.mem_cons_self _ _))
        (hk a (List.mem_cons_of_mem _ hp1))
    have hone := emitLoop_length_one ltOf I (T.zip V) (alignTsNext t0 I) t0 v0 hall
    have hsorted : (t0 :: (T.zip V).map Prod.fst).Sorted (· ≤ ·) := by
      rw [map_fst_zip_of_length T V hlen]; exact hs
    have hmax := emitLoop_isMaxAt I hI (T.zip V) (alignTsNext t0 I) t0 v0
      (alignTsNext_ge t0 I hI hno0) hsorted hnoz
    rw [pureDedup_of_pos ltOf t0 T v0 V I hI hlen hno] at hlast hD
    obtain ⟨p, hp⟩ := List.length_eq_one.1 hone
    rw [hp] at hlast hD hmax
    simp only [List.map_cons, List.map_nil, List.getLast?_singleton, Option.some.injEq] at hlast
    refine ⟨p.2, ?_, ?_⟩
    · rw [DeduplicateSamples, hD, ← hlast]
      rfl
    · have := hmax p (List.mem_singleton_self p)
      rw [hlast] at this
      exact this

theorem DeduplicateSamples_single_bucket_witness :
    (0 : Int) < 1000 ∧ ([1200, 1500, 2000, 2000] : List Int).Sorted (· ≤ ·) ∧
    (∀ t ∈ ([1200, 1500, 2000, 2000] : List Int), 0 ≤ t) ∧
    (∀ t ∈ ([1200, 1500, 2000, 2000] : List Int), t + 1000 - 1 ≤ MaxInt64) ∧
    (∀ t ∈ ([1200, 1500, 2000, 2000] : List Int), InBucket 1000 2 t) ∧
    ([5, 1, 9, 3] : List ℚ).length = ([1200, 1500, 2000, 2000] : List Int).length ∧
    ∃ v, DeduplicateSamples ltOf [1200, 1500, 2000, 2000] ([5, 1, 9, 3] : List ℚ) 1000
        = some ([([1200, 1500, 2000, 2000] : List Int).getLast (by decide)], [v]) ∧
      IsMaxAt (([1200, 1500, 2000, 2000] : List Int).zip ([5, 1, 9, 3] : List ℚ))
        (([1200, 1500, 2000, 2000] : List Int).getLast (by decide)) v :=
  ⟨by decide, by decide, by decide, by decide, by decide, by decide,
   DeduplicateSamples_single_bucket [1200, 1500, 2000, 2000] [5, 1, 9, 3] 1000 2
     (by decide) (by decide) (by decide) (by decide) (by decide) (by decide) (by decide)⟩

/-- C19. For every interval, every non-decreasing timestamp sequence and every
parallel sequence of totally ordered values, `DeduplicateSamples` returns, each
returned pair `(t, v)` is `(ts[j], values[j])` for some input index `j`, and
the returned timestamps form a subsequence of the input timestamps. -/
theorem DeduplicateSamples_no_fabrication {α : Type} [LinearOrder α] [Zero α]
    (ts : List Int) (values : List α) (I : Int)
    (hs : ts.Sorted (· ≤ ·)) (hv : values.length = ts.length) :
    ∃ out, DeduplicateSamples ltOf ts values I = some out ∧
      (∀ p ∈ out.1.zip out.2, ∃ j : Nat, ts[j]? = some p.1 ∧ values[j]? = some p.2) ∧
      out.1.Sublist ts := by
  refine ⟨_, dedupScan_eq_pure ltOf true ts values I hv, ?_, ?_⟩
  · intro p hp
    apply exists_index_of_mem_zip
    by_cases hn : needsDedup ts I = false
    · simpa [pureDedup, hn] using hp
    · match ts, values, hv, hs, hn, hp with
      | [], [], _, _, _, hp => simp [pureDedup, needsDedup] at hp
      | t0 :: T, v0 :: V, hv, hs, hn, hp =>
        have hn' : needsDedup (t0 :: T) I = true := by simpa using hn
        simp only [pureDedup, hn', Bool.true_eq_false, if_false, List.zip_cons_cons,
          pureScan_true_eq, zip_map_fst_map_snd] at hp
        rw [List.zip_cons_cons]
        exact emitLoop_subset ltOf I ((t0, v0) :: T.zip V) (T.zip V) _ t0 v0
          (List.mem_cons_self _ _) (fun q hq => List.mem_cons_of_mem _ hq) p hp
  · rw [pureDedup_fst ltOf true ts values I hv]
    exact dedupTs_sublist ts I

theorem DeduplicateSamples_no_fabrication_witness :
    ([1000, 1000, 1000, 1500, 2700, 2700] : List Int).Sorted (· ≤ ·) ∧
    ([5, 9, 1, 2, 3, 1] : List ℚ).length =
      ([1000, 1000, 1000, 1500, 2700, 2700] : List Int).length ∧
    ∃ out, DeduplicateSamples ltOf [1000, 1000, 1000, 1500, 2700, 2700]
        ([5, 9, 1, 2, 3, 1] : List ℚ) 1000 = some out ∧
      (∀ p ∈ out.1.zip out.2, ∃ j : Nat,
        ([1000, 1000, 1000, 1500, 2700, 2700] : List Int)[j]? = some p.1 ∧
        ([5, 9, 1, 2, 3, 1] : List ℚ)[j]? = some p.2) ∧
      out.1.Sublist [1000, 1000, 1000, 1500, 2700, 2700] :=
  ⟨by decide, by decide,
   DeduplicateSamples_no_fabrication [1000, 1000, 1000, 1500, 2700, 2700] [5, 9, 1, 2, 3, 1] 1000
     (by decide) (by decide)⟩

/-- C15 (as stated, refuted). With timestamps `[MaxInt64, MaxInt64]`, values
`[7, 3]` and interval `1000` the `int64` sum `ts + dedupInterval` wraps around:
`needsDedup` is false, so `DeduplicateSamples` returns values `[7, 3]`, while
the slow path run on its own returns values `[7, 7]`. -/
theorem slowPath_differs_on_wrap :
    needsDedup [9223372036854775807, 9223372036854775807] 1000 = false ∧
    DeduplicateSamples (ltOf : ℚ → ℚ → Bool) [9223372036854775807, 9223372036854775807] [7, 3] 1000
      = some ([9223372036854775807, 9223372036854775807], [7, 3]) ∧
    slowPath (ltOf : ℚ → ℚ → Bool) true [9223372036854775807, 9223372036854775807] [7, 3] 1000
      = some ([9223372036854775807, 9223372036854775807], [7, 7]) := by
  decide

/-- C15 (amended). For every input of at least two samples with parallel values
whose timestamps `t` are `int64` values with `t + I - 1 ≤ MaxInt64` (no
boundary computation wraps around) and every interval `I > 0`, the slow path of
`DeduplicateSamples` (lines 33-67) run without the `needsDedup` test returns
what `DeduplicateSamples` returns; in particular, when `needsDedup` is false it
returns the input unchanged. This holds for every Boolean `<` on the values,
so for totally ordered values. -/
theorem slowPath_eq_DeduplicateSamples {α : Type} [Zero α] (lt : α → α → Bool)
    (ts : List Int) (values : List α) (I : Int) (h2 : 2 ≤ ts.length) (hI : 0 < I)
    (hno : ∀ t ∈ ts, NoOverflow I t) (hv : values.length = ts.length) :
    ∃ out, DeduplicateSamples lt ts values I = some out ∧
      slowPath lt true ts values I = some out ∧
      (needsDedup ts I = false → out = (ts, values)) := by
  refine ⟨_, dedupScan_eq_pure lt true ts values I hv, ?_, ?_⟩
  · match ts, values, hv, h2, hno with
    | t0 :: T, v0 :: V, hv, h2, hno =>
      have hlen : V.length = T.length := by simpa using hv
      rw [pureDedup_of_pos lt t0 T v0 V I hI hlen hno,
        slowPath_eq_pure lt true t0 T v0 V I hlen (by simpa using h2), pureScan_true_eq]
  · intro hn
    simp [pureDedup, hn]

theorem slowPath_eq_DeduplicateSamples_witness :
    2 ≤ ([100, 5000, 6500, 7001] : List Int).length ∧ (0 : Int) < 1000 ∧
    (∀ t ∈ ([100, 5000, 6500, 7001] : List Int), NoOverflow 1000 t) ∧
    ([1, 2, 3, 4] : List ℚ).length = ([100, 5000, 6500, 7001] : List Int).length ∧
    ∃ out, DeduplicateSamples (ltOf : ℚ → ℚ → Bool) [100, 5000, 6500, 7001] [1, 2, 3, 4] 1000
        = some out ∧
      slowPath (ltOf : ℚ → ℚ → Bool) true [100, 5000, 6500, 7001] [1, 2, 3, 4] 1000 = some out ∧
      (needsDedup [100, 5000, 6500, 7001] 1000 = false →
        out = ([100, 5000, 6500, 7001], [1, 2, 3, 4])) :=
  ⟨by decide, by decide, by decide, by decide,
   slowPath_eq_DeduplicateSamples ltOf [100, 5000, 6500, 7001] [1, 2, 3, 4] 1000
     (by decide) (by decide) (by decide) (by decide)⟩

/-- C16 (as stated, refuted). With timestamps `[9223372036854774000, MaxInt64]`
and interval `1000`, the update of `tsNext` for the second timestamp wraps
around: in `needsDedup` and in the first iteration of the scan of
`DeduplicateSamples` it takes `tsNext` from `9223372036854774000` down to
`-9223372036854774000`. -/
theorem tsNext_decreases_on_wrap :
    needsDedupTsNexts 1000 (alignTsNext 9223372036854774000 1000) [9223372036854775807]
      = [9223372036854774000, -9223372036854774000] ∧
    (loopBody (ltOf : ℚ → ℚ → Bool) true 1000 0
        { srcTimestamps := [9223372036854774000, 9223372036854775807, 9223372036854775807], srcValues := [1, 2, 3],
          dstTimestamps := [], dstValues := [],
          tsNext := alignTsNext 9223372036854774000 1000,
          prevTs := 0, value := 0, prevValue := 0 }).map ScanState.tsNext
      = some (-9223372036854774000) ∧
    ¬ ((9223372036854774000 : Int) < -9223372036854774000) := by
  decide

/-- C16 (amended). For every interval `I > 0` and every sequence `ts` of `int64`
timestamps `t` with `t + I - 1 ≤ MaxInt64` (no boundary computation wraps
around), with parallel values. In `needsDedup`: the list `needsDedupTsNexts`
starts with the initial boundary, each further entry is the update
`advanceTsNext` that the loop makes at the iteration whose timestamp exceeds
the entry before, and the loop runs to the end (returns false) exactly when
there is one entry per iteration; all entries are multiples of `I` and each is
greater than the one before. In the scan of `DeduplicateSamples` and of
`deduplicateSamplesDuringMerge`: every iteration `n` of the loop is reached and
completes; `tsNext` is a multiple of `I` before and after it; the iteration
leaves `tsNext` unchanged when the next timestamp `ts[n + 1]` does not exceed
it, and otherwise updates it to a strictly greater value. -/
theorem tsNext_multiple_and_increasing {α : Type} [Zero α] (lt : α → α → Bool) (flag : Bool)
    (I : Int) (hI : 0 < I) (ts : List Int) (values : List α)
    (hno : ∀ t ∈ ts, NoOverflow I t) (hv : values.length = ts.length) :
    (∀ (t0 : Int) (rest : List Int), ts = t0 :: rest →
      (needsDedupTsNexts I (alignTsNext t0 I) rest).head? = some (alignTsNext t0 I) ∧
      (∀ (j : Nat) (x y : Int),
        (needsDedupTsNexts I (alignTsNext t0 I) rest)[j]? = some x →
        (needsDedupTsNexts I (alignTsNext t0 I) rest)[j + 1]? = some y →
        ∃ t, rest[j]? = some t ∧ x < t ∧ y = advanceTsNext x t I) ∧
      (needsDedupLoop I (alignTsNext t0 I) rest = false ↔
        (needsDedupTsNexts I (alignTsNext t0 I) rest).length = rest.length + 1) ∧
      (∀ x ∈ needsDedupTsNexts I (alignTsNext t0 I) rest, I ∣ x) ∧
      (needsDedupTsNexts I (alignTsNext t0 I) rest).Chain' (· < ·)) ∧
    (∀ (t0 : Int) (n : Nat), ts[0]? = some t0 → n + 2 ≤ ts.length →
      ∃ s s' t,
        scanLoop lt flag I n 0
          { srcTimestamps := ts, srcValues := values, dstTimestamps := [], dstValues := [],
            tsNext := alignTsNext t0 I, prevTs := 0, value := 0, prevValue := 0 } = some s ∧
        loopBody lt flag I n s = some s' ∧ ts[n + 1]? = some t ∧
        I ∣ s.tsNext ∧ I ∣ s'.tsNext ∧
        (t ≤ s.tsNext → s'.tsNext = s.tsNext) ∧
        (s.tsNext < t → s.tsNext < s'.tsNext)) := by
  refine ⟨?_, ?_⟩
  · intro t0 rest hts
    have hrest : ∀ u ∈ rest, NoOverflow I u := fun u hu =>
      hno u (by rw [hts]; exact List.mem_cons_of_mem _ hu)
    exact ⟨needsDedupTsNexts_head I rest _, needsDedupTsNexts_step I rest _,
      needsDedupTsNexts_length I rest _,
      needsDedupTsNexts_dvd I hI rest _ (alignTsNext_dvd t0 I hI) (alignTsNext_range t0 I).1 hrest,
      needsDedupTsNexts_chain I hI rest _ hrest⟩
  · intro t0 n _ hn
    have hinv : Inv ts values 0
        { srcTimestamps := ts, srcValues := values, dstTimestamps := [], dstValues := [],
          tsNext := alignTsNext t0 I, prevTs := 0, value := (0 : α), prevValue := 0 } :=
      { lenT := rfl, lenV := rfl, lenD := rfl, le := Nat.le_refl _,
        agreeT := fun _ _ => rfl, agreeV := fun _ _ => rfl, full := fun _ => rfl }
    obtain ⟨s, hs, hinvs, _⟩ := scanLoop_freshView lt flag I ts values hv n 0 _ hinv (by omega)
    rw [Nat.zero_add] at hinvs
    obtain ⟨ti, hti⟩ := getElem?_some_of_lt ts n (by omega)
    obtain ⟨tn, htn⟩ := getElem?_some_of_lt ts (n + 1) (by omega)
    obtain ⟨vi, hvi⟩ := getElem?_some_of_lt values n (by omega)
    obtain ⟨s', hs', _⟩ := loopBody_spec lt flag I ts values n s ti tn vi hinvs hti htn hvi
    obtain ⟨hd, hX, hnos⟩ := scanLoop_boundary lt flag I hI n 0 _ s hs
      (alignTsNext_dvd t0 I hI) (alignTsNext_range t0 I).1 hno
    obtain ⟨⟨hd', _, _⟩, t, ht, h1, h2⟩ := loopBody_boundary lt flag I hI n s s' hs' hd hX hnos
    have htt : t = tn := by
      have := hinvs.agreeT (n + 1) (le_trans hinvs.le (Nat.le_succ n))
      rw [ht, htn] at this
      exact Option.some.inj this
    subst htt
    exact ⟨s, s', t, hs, hs', htn, hd, hd', h1, h2⟩

theorem tsNext_multiple_and_increasing_witness :
    (0 : Int) < 1000 ∧ (∀ t ∈ ([100, 5000, 6500, 7001] : List Int), NoOverflow 1000 t) ∧
    ([1, 2, 3, 4] : List ℚ).length = ([100, 5000, 6500, 7001] : List Int).length ∧
    (∀ (t0 : Int) (rest : List Int), ([100, 5000, 6500, 7001] : List Int) = t0 :: rest →
      (needsDedupTsNexts 1000 (alignTsNext t0 1000) rest).head? = some (alignTsNext t0 1000) ∧
      (∀ (j : Nat) (x y : Int),
        (needsDedupTsNexts 1000 (alignTsNext t0 1000) rest)[j]? = some x →
        (needsDedupTsNexts 1000 (alignTsNext t0 1000) rest)[j + 1]? = some y →
        ∃ t, rest[j]? = some t ∧ x < t ∧ y = advanceTsNext x t 1000) ∧
      (needsDedupLoop 1000 (alignTsNext t0 1000) rest = false ↔
        (needsDedupTsNexts 1000 (alignTsNext t0 1000) rest).length = rest.length + 1) ∧
      (∀ x ∈ needsDedupTsNexts 1000 (alignTsNext t0 1000) rest, (1000 : Int) ∣ x) ∧
      (needsDedupTsNexts 1000 (alignTsNext t0 1000) rest).Chain' (· < ·)) ∧
    (∀ (t0 : Int) (n : Nat), ([100, 5000, 6500, 7001] : List Int)[0]? = some t0 →
      n + 2 ≤ ([100, 5000, 6500, 7001] : List Int).length →
      ∃ s s' t,
        scanLoop (ltOf : ℚ → ℚ → Bool) true 1000 n 0
          { srcTimestamps := [100, 5000, 6500, 7001], srcValues := [1, 2, 3, 4],
            dstTimestamps := [], dstValues := [],
            tsNext := alignTsNext t0 1000, prevTs := 0, value := 0, prevValue := 0 } = some s ∧
        loopBody (ltOf : ℚ → ℚ → Bool) true 1000 n s = some s' ∧
        ([100, 5000, 6500, 7001] : List Int)[n + 1]? = some t ∧
        (1000 : Int) ∣ s.tsNext ∧ (1000 : Int) ∣ s'.tsNext ∧
        (t ≤ s.tsNext → s'.tsNext = s.tsNext) ∧
        (s.tsNext < t → s.tsNext < s'.tsNext)) :=
  ⟨by decide, by decide, by decide,
   tsNext_multiple_and_increasing ltOf true 1000 (by decide) [100, 5000, 6500, 7001] [1, 2, 3, 4]
     (by decide) (by decide)⟩

/-- C18. In the slow path of `DeduplicateSamples` on parallel inputs of `N ≥ 1`
samples, the state at the start of iteration `i` (for `i = N - 1`: after the
loop) exists and has at most `i` pairs emitted, so every write goes to an index
`≤ i` and the final append to an index `≤ N - 1`; the cells read from then on
(timestamps `i - 1`, values and timestamps from `i` on) still hold the input.
Hence the slow path never indexes out of range and returns what the same scan
returns when it writes into fresh output buffers; this is the result of
`DeduplicateSamples` whenever `needsDedup` is true. -/
theorem in_place_compaction_safe {α : Type} [Zero α] (lt : α → α → Bool)
    (ts : List Int) (values : List α) (I t0 : Int) (h0 : ts[0]? = some t0)
    (hv : values.length = ts.length) :
    (∀ i : Nat, i + 1 ≤ ts.length →
      ∃ s, scanLoop lt true I i 0
          { srcTimestamps := ts, srcValues := values, dstTimestamps := [], dstValues := [],
            tsNext := alignTsNext t0 I, prevTs := 0, value := 0, prevValue := 0 } = some s ∧
        s.dstTimestamps.length ≤ i ∧ s.dstValues.length = s.dstTimestamps.length ∧
        (∀ j : Nat, i ≤ j → s.srcTimestamps[j]? = ts[j]? ∧ s.srcValues[j]? = values[j]?) ∧
        (0 < i → s.srcTimestamps[i - 1]? = ts[i - 1]?)) ∧
    ∃ out, slowPath lt true ts values I = some out ∧
      slowPathFresh lt true ts values I = some out ∧
      (needsDedup ts I = true → DeduplicateSamples lt ts values I = some out) := by
  have hpos : 1 ≤ ts.length := by
    have := (List.getElem?_eq_some_iff.1 h0).1
    omega
  have hinv : Inv ts values 0
      { srcTimestamps := ts, srcValues := values, dstTimestamps := [], dstValues := [],
        tsNext := alignTsNext t0 I, prevTs := 0, value := (0 : α), prevValue := 0 } :=
    { lenT := rfl, lenV := rfl, lenD := rfl, le := Nat.le_refl _,
      agreeT := fun _ _ => rfl, agreeV := fun _ _ => rfl, full := fun _ => rfl }
  refine ⟨?_, ?_⟩
  · intro i hi
    obtain ⟨s, hs, hinvs, _⟩ :=
      scanLoop_freshView lt true I ts values hv i 0 _ hinv (by omega)
    rw [Nat.zero_add] at hinvs
    exact ⟨s, hs, hinvs.le, hinvs.lenD,
      fun j hj => ⟨hinvs.agreeT j (le_trans hinvs.le hj), hinvs.agreeV j (le_trans hinvs.le hj)⟩,
      fun hi0 => hinvs.read_prev hi0⟩
  · obtain ⟨s, hs, hinvs, hf⟩ :=
      scanLoop_freshView lt true I ts values hv (ts.length - 1) 0 _ hinv (by omega)
    rw [Nat.zero_add] at hinvs
    obtain ⟨out, ho, hof⟩ :=
      scanFinish_freshView lt ts values hv (ts.length - 1) s hinvs (by omega)
    have hslow : slowPath lt true ts values I = some out := by
      simp only [slowPath, h0, Option.bind_eq_bind, Option.some_bind, hs, ho]
    refine ⟨out, hslow, ?_, ?_⟩
    · have hf' : scanLoopFresh lt true I (ts.length - 1) 0
          { srcTimestamps := ts, srcValues := values, dstTimestamps := [], dstValues := [],
            tsNext := alignTsNext t0 I, prevTs := 0, value := (0 : α), prevValue := 0 }
          = some (freshView ts values s) := hf
      simp only [slowPathFresh, h0, Option.bind_eq_bind, Option.some_bind, hf', hof]
    · intro hn
      rw [DeduplicateSamples, dedupScan_eq_slowPath, hn]
      simpa using hslow

theorem in_place_compaction_safe_witness :
    ([1000, 1500, 2700, 2900, 3600] : List Int)[0]? = some 1000 ∧
    ([1, 2, 3, 4, 5] : List ℚ).length = ([1000, 1500, 2700, 2900, 3600] : List Int).length ∧
    (∀ i : Nat, i + 1 ≤ ([1000, 1500, 2700, 2900, 3600] : List Int).length →
      ∃ s, scanLoop (ltOf : ℚ → ℚ → Bool) true 1000 i 0
          { srcTimestamps := [1000, 1500, 2700, 2900, 3600], srcValues := [1, 2, 3, 4, 5],
            dstTimestamps := [], dstValues := [],
            tsNext := alignTsNext 1000 1000, prevTs := 0, value := 0, prevValue := 0 } = some s ∧
        s.dstTimestamps.length ≤ i ∧ s.dstValues.length = s.dstTimestamps.length ∧
        (∀ j : Nat, i ≤ j →
          s.srcTimestamps[j]? = ([1000, 1500, 2700, 2900, 3600] : List Int)[j]? ∧
          s.srcValues[j]? = ([1, 2, 3, 4, 5] : List ℚ)[j]?) ∧
        (0 < i → s.srcTimestamps[i - 1]? = ([1000, 1500, 2700, 2900, 3600] : List Int)[i - 1]?)) ∧
    ∃ out, slowPath (ltOf : ℚ → ℚ → Bool) true [1000, 1500, 2700, 2900, 3600] [1, 2, 3, 4, 5] 1000
        = some out ∧
      slowPathFresh (ltOf : ℚ → ℚ → Bool) true [1000, 1500, 2700, 2900, 3600] [1, 2, 3, 4, 5] 1000
        = some out ∧
      (needsDedup [1000, 1500, 2700, 2900, 3600] 1000 = true →
        DeduplicateSamples (ltOf : ℚ → ℚ → Bool) [1000, 1500, 2700, 2900, 3600] [1, 2, 3, 4, 5] 1000
          = some out) :=
  ⟨by decide, by decide,
   in_place_compaction_safe ltOf [1000, 1500, 2700, 2900, 3600] [1, 2, 3, 4, 5] 1000 1000
     (by decide) (by decide)⟩

end Dedup
